import Mathlib

/-!
Verification of the work-item scheduling and reconciliation engine
(`loop-runner.py`, `orchestrator.py`).

The Python sources are shallowly embedded below: work items become the
`Feature` structure, the JSON collection becomes `List Feature`, the external
git ledger becomes a list of commit-message strings, and each relevant Python
function is translated into an executable Lean function of the same name.
Recursive traversals carry an explicit fuel argument bounding their recursion
depth, applied at the same entry points as the Python code.
-/

set_option maxHeartbeats 1000000

-- ============================================================
-- DEFINITIONS
-- ============================================================

/-- Test `charsStartWith needle hay`: the first characters of `hay` are `needle`. -/
def charsStartWith : List Char → List Char → Bool
  | [], _ => true
  | _ :: _, [] => false
  | a :: as, b :: bs => a == b && charsStartWith as bs

/-- Test `charsContain needle hay`: `needle` occurs contiguously inside `hay`. -/
def charsContain (needle : List Char) : List Char → Bool
  | [] => charsStartWith needle []
  | hay@(_ :: bs) => charsStartWith needle hay || charsContain needle bs

/-- Python's substring containment test `needle in hay` (also the semantics of
`git log --grep` for a pattern without regex metacharacters). -/
def containsStr (hay needle : String) : Bool :=
  charsContain needle.data hay.data

/-- Python's `str.lower()`, modelled character-wise. -/
def lowerStr (s : String) : String :=
  ⟨s.data.map Char.toLower⟩

/-- The completion marker string used in commit messages: the literal text
"session: completed " followed by the feature id. -/
def markerFor (feature_id : String) : String :=
  "session: completed " ++ feature_id

/-- Function `is_feature_in_git_history` (loop-runner.py:520-529, orchestrator.py:407-416):
it greps the git log for the marker of the feature id, which matches
whenever some commit message of the ledger contains the marker as a substring. -/
def is_feature_in_git_history (ledger : List String) (feature_id : String) : Bool :=
  ledger.any (fun entry => containsStr entry (markerFor feature_id))

/-- A work item of `feature_list.json` (spec section 3), with the fields the
engine reads.  Missing-field defaults follow the Python `.get` defaults. -/
structure Feature where
  id : String := ""
  name : String := ""
  description : String := ""
  category : String := ""
  priority : Int := 99
  dependencies : List String := []
  tests : List String := []
  complexity : String := ""
  passes : Bool := false
  blocked : Bool := false
  needs_review : Bool := false
deriving DecidableEq, Inhabited

/-- Elementary file-system writes, for describing how the store file is
persisted. -/
inductive FsOp where
  | openTruncate : String → FsOp
  | writeData : String → String → FsOp
deriving DecidableEq

/-- The persistence step used by every writer of the store
(`mark_feature_blocked` loop-runner.py:236-237, `sync_features_with_git`
loop-runner.py:551-554, auto-completion loop-runner.py:1323-1324):
`with open(feature_file, "w") as f: json.dump(data, f, indent=2)` — a
truncating open of the target file itself followed by streaming the new
content into it.  No temporary file and no rename is involved. -/
def save_store_ops (path content : String) : List FsOp :=
  [FsOp.openTruncate path, FsOp.writeData path content]

/-- Effect of one file-system write on the content of the file at `path`. -/
def applyFsOp (path : String) (cur : String) : FsOp → String
  | FsOp.openTruncate p => if p = path then "" else cur
  | FsOp.writeData p c => if p = path then cur ++ c else cur

/-- Content of the file at `path` after executing a prefix of the write
sequence (a crash interrupts the sequence after any prefix). -/
def fileContentAfter (path init : String) (ops : List FsOp) : String :=
  ops.foldl (applyFsOp path) init

/-- Number of features with `passes == true`. -/
def completedCount (features : List Feature) : Nat :=
  (features.filter (fun f => f.passes)).length

/-- Result of `get_feature_status` (loop-runner.py:561-583). -/
structure FeatureStatus where
  total : Nat
  completed : Nat
  remaining : Nat
  blocked : Nat
deriving DecidableEq

/-- Function `get_feature_status` (loop-runner.py:561-583): completed counts `passes`,
remaining is `total - completed`, blocked counts the `blocked` flag
independently of `passes`. -/
def get_feature_status (features : List Feature) : FeatureStatus :=
  { total := features.length
    completed := completedCount features
    remaining := features.length - completedCount features
    blocked := (features.filter (fun f => f.blocked)).length }

/-- Function `sync_features_with_git` (loop-runner.py:531-559, orchestrator.py:418-446):
for every feature with `passes == false` whose id the ledger lookup reports,
set `passes = true` and count a fix.  Returns the updated collection and the
fix count. -/
def sync_features_with_git (ledger : List String) : List Feature → List Feature × Nat
  | [] => ([], 0)
  | f :: rest =>
    let r := sync_features_with_git ledger rest
    if !f.passes && is_feature_in_git_history ledger f.id then
      ({ f with passes := true } :: r.1, r.2 + 1)
    else
      (f :: r.1, r.2)

/-- The store file is rewritten only under `if fixes > 0`
(loop-runner.py:551-553). -/
def syncWritesStore (ledger : List String) (features : List Feature) : Bool :=
  decide (0 < (sync_features_with_git ledger features).2)

/-- High-risk keyword table (loop-runner.py:366-370). -/
def high_keywords : List String :=
  ["security", "crypto", "encrypt", "auth", "credential", "password",
   "ssh", "certificate", "token", "session", "permission", "rbac",
   "injection", "sanitize", "validate", "vulnerability"]

/-- Medium-risk keyword table (loop-runner.py:382). -/
def medium_keywords : List String :=
  ["api", "endpoint", "database", "repository", "migration", "schema",
   "patch", "system", "service", "handler", "execute", "command"]

/-- Low-risk keyword table (loop-runner.py:389). -/
def low_keywords : List String :=
  ["refactor", "rename", "cleanup", "format", "typo", "comment", "docs"]

/-- Function `get_feature_complexity` (loop-runner.py:347-404, orchestrator.py:39-101):
manual override first, otherwise keyword scoring.  Each keyword loop has a
`break`, so a keyword set contributes its weight at most once. -/
def get_feature_complexity (feature : Feature) : String :=
  let override := lowerStr feature.complexity
  if override = "high" ∨ override = "medium" ∨ override = "low" then override
  else
    let category := lowerStr feature.category
    let description := lowerStr feature.description
    let nm := lowerStr feature.name
    let s1 : Int :=
      if high_keywords.any
          (fun k => containsStr description k || containsStr category k || containsStr nm k)
      then 2 else 0
    let s2 := if 3 < feature.dependencies.length then s1 + 1 else s1
    let s3 := if 5 < feature.tests.length then s2 + 1 else s2
    let s4 :=
      if medium_keywords.any (fun k => containsStr description k || containsStr category k)
      then s3 + 1 else s3
    let s5 :=
      if low_keywords.any
          (fun k => containsStr description k || containsStr category k || containsStr nm k)
      then s4 - 2 else s4
    let s6 := if containsStr nm "simple" || containsStr nm "minor" then s5 - 1 else s5
    let s7 := if description.length < 40 then s6 - 1 else s6
    if 3 ≤ s7 then "high" else if s7 ≤ 0 then "low" else "medium"

/-- The ids of the collection, in order: the keys of the `graph` /
`in_degree` dicts (ids are unique post-validation, so dict insertion keeps
feature order). -/
def keyIds (fs : List Feature) : List String := fs.map (fun f => f.id)

/-- Lookup `feat_map[i]` (loop-runner.py:164-166): the feature of the collection
with id `i` (unique post-validation). -/
def featMap (fs : List Feature) (i : String) : Feature :=
  (fs.find? (fun f => f.id == i)).getD default

/-- The adjacency dict of `topological_sort_features`
(loop-runner.py:170-177): `graph[d]` lists, once per dependency occurrence
and in feature order, the ids of the features that depend on `d`; only
dependencies that are keys are recorded (`if dep in graph`). -/
def adjOf (fs : List Feature) (d : String) : List String :=
  if d ∈ keyIds fs then
    (fs.map (fun f => (f.dependencies.filter (fun x => x == d)).map (fun _ => f.id))).flatten
  else []

/-- Number of dependency occurrences of feature `n` pointing at a key not in
`placed`: the quantity the mutable counter `in_degree[n]` tracks. -/
def unplacedDeg (fs : List Feature) (placed : List String) (n : String) : Nat :=
  ((featMap fs n).dependencies.filter
      (fun d => decide (d ∈ keyIds fs) && !(decide (d ∈ placed)))).length

/-- Counter table `in_degree` after construction (loop-runner.py:160-177). -/
def initInDegree (fs : List Feature) : String → Int :=
  fun n => if n ∈ keyIds fs then (unplacedDeg fs [] n : Int) else 0

/-- The initial ready queue (loop-runner.py:180-183), in key order. -/
def initQueue (fs : List Feature) : List String :=
  (keyIds fs).filter (fun n => initInDegree fs n == 0)

/-- Mutable state of Kahn's algorithm: the `in_degree` counters, the pending
queue, and `sorted_result`. -/
structure KahnSt where
  indeg : String → Int
  queue : List String
  result : List Feature

/-- One decrement `in_degree[neighbor] -= 1` with enqueue on reaching zero
(loop-runner.py:196-199). -/
def stepDec (st : KahnSt) (n : String) : KahnSt :=
  let v := st.indeg n - 1
  { indeg := fun x => if x = n then v else st.indeg x
    queue := if v = 0 then st.queue ++ [n] else st.queue
    result := st.result }

/-- The inner neighbor loop of a placement (loop-runner.py:196-199). -/
def processNbrs : KahnSt → List String → KahnSt
  | st, [] => st
  | st, n :: ns => processNbrs (stepDec st n) ns

/-- Place one batch element: append its feature to `sorted_result`, then walk
its adjacency list (loop-runner.py:192-199). -/
def placeOne (fs : List Feature) (st : KahnSt) (i : String) : KahnSt :=
  processNbrs { st with result := st.result ++ [featMap fs i] } (adjOf fs i)

/-- The `for feat_id in batch` loop (loop-runner.py:192-199). -/
def processBatch (fs : List Feature) : KahnSt → List String → KahnSt
  | st, [] => st
  | st, i :: rest => processBatch fs (placeOne fs st i) rest

/-- Stable insertion: `x` is placed before the first element of strictly
greater key, keeping equal-key elements in order. -/
def insertStable (key : String → Int) (x : String) : List String → List String
  | [] => [x]
  | y :: ys => if key y < key x then y :: insertStable key x ys else x :: y :: ys

/-- Python's stable `sorted(queue, key=...)` (loop-runner.py:189). -/
def stableSortBy (key : String → Int) (l : List String) : List String :=
  l.foldr (insertStable key) []

/-- Sort key: the priority of the feature with the given id, default 99 (loop-runner.py:189). -/
def prioKey (fs : List Feature) (i : String) : Int := (featMap fs i).priority

/-- The `while queue` loop of Kahn's algorithm (loop-runner.py:186-199),
fuel-bounded: each pass snapshots the queue sorted by priority, clears the
queue, and places every batch element. -/
def kahnRun (fs : List Feature) : Nat → KahnSt → KahnSt
  | 0, st => st
  | fuel + 1, st =>
    if st.queue = [] then st
    else
      kahnRun fs fuel
        (processBatch fs { st with queue := [] } (stableSortBy (prioKey fs) st.queue))

/-- Function `topological_sort_features` (loop-runner.py:153-208): run Kahn's
algorithm; if some features were never placed (cycle), append them at the end
in original collection order. -/
def topological_sort_features (fs : List Feature) : List Feature :=
  let fin :=
    kahnRun fs (fs.length + 1)
      { indeg := initInDegree fs, queue := initQueue fs, result := [] }
  if fin.result.length < fs.length then
    fin.result ++ fs.filter (fun f => !((fin.result.map (fun g => g.id)).contains f.id))
  else fin.result

/-- The adjacency dict of `detect_circular_dependencies`
(loop-runner.py:113-116): `graph[id] = dependencies`. -/
def graphOf (fs : List Feature) : List (String × List String) :=
  fs.map (fun f => (f.id, f.dependencies))

/-- Lookup `graph.get(node, [])`. -/
def lookupG (g : List (String × List String)) (k : String) : List String :=
  ((g.find? (fun p => p.1 == k)).map (fun p => p.2)).getD []

/-- Edge of the dependency traversal: `b` is among the dependencies recorded
for `a`. -/
def Eg (g : List (String × List String)) (a b : String) : Prop :=
  b ∈ lookupG g a

/-- The graph has a dependency cycle. -/
def hasCycleG (g : List (String × List String)) : Prop :=
  ∃ a, Relation.TransGen (Eg g) a a

/-- The collection's dependency graph is acyclic. -/
def acyclicF (fs : List Feature) : Prop :=
  ¬ hasCycleG (graphOf fs)

/-- DFS state: the `visited` set and the current `path`; the recursion stack
`rec_stack` always holds exactly the elements of `path`, so it is represented
by `path` membership. -/
structure DfsState where
  visited : List String
  path : List String

/-- Slice `path[path.index(x):]`: the path from the first occurrence of `x` on. -/
def dropUntil (x : String) : List String → List String
  | [] => []
  | a :: as => if a = x then a :: as else dropUntil x as

/-- The neighbor loop of `dfs` (loop-runner.py:127-135): `rec` is the
recursive call used on an unvisited neighbor; a visited neighbor on the
recursion stack yields the cycle `path[path.index(neighbor):] + [neighbor]`. -/
def visitList (rec : String → DfsState → Option (List String) × DfsState) :
    List String → DfsState → Option (List String) × DfsState
  | [], s => (none, s)
  | n :: ns, s =>
    if n ∈ s.visited then
      if n ∈ s.path then (some (dropUntil n s.path ++ [n]), s)
      else visitList rec ns s
    else
      match rec n s with
      | (some c, s1) => (some c, s1)
      | (none, s1) => visitList rec ns s1

/-- Call `dfs(node)` (loop-runner.py:122-139), fuel-bounded: mark the node
visited, push it on the path, visit its neighbors, and pop it again when no
cycle was found. -/
def dfsNode (g : List (String × List String)) :
    Nat → String → DfsState → Option (List String) × DfsState
  | 0, _, s => (none, s)
  | fuel + 1, node, s =>
    match
      visitList (dfsNode g fuel) (lookupG g node)
        { visited := node :: s.visited, path := s.path ++ [node] }
    with
    | (some c, s1) => (some c, s1)
    | (none, s1) => (none, { visited := s1.visited, path := s1.path.dropLast })

/-- The root loop of `detect_circular_dependencies` (loop-runner.py:141-147):
every unvisited key is used as a DFS root, sharing `visited` across roots. -/
def detectLoop (g : List (String × List String)) (fuel : Nat) :
    List String → DfsState → List String
  | [], _ => []
  | k :: ks, s =>
    if k ∈ s.visited then detectLoop g fuel ks s
    else
      match dfsNode g fuel k s with
      | (some c, _) => c
      | (none, s1) => detectLoop g fuel ks s1

/-- All node occurrences mentioned by the graph: the keys and every
dependency value. -/
def gNodes (g : List (String × List String)) : List String :=
  g.map (fun p => p.1) ++ (g.map (fun p => p.2)).flatten

/-- Total number of node occurrences mentioned by the graph plus one: an
upper bound on the DFS recursion depth, used as fuel. -/
def fuelFor (g : List (String × List String)) : Nat :=
  (gNodes g).length + 1

/-- Specification predicate: no cycle is reachable from `v` along dependency
edges. -/
def safeNode (g : List (String × List String)) (v : String) : Prop :=
  ∀ w, Relation.ReflTransGen (Eg g) v w → ¬ Relation.TransGen (Eg g) w w

/-- Number of graph nodes not yet visited: the DFS recursion-depth measure. -/
def unvisitedCount (g : List (String × List String)) (s : DfsState) : Nat :=
  ((gNodes g).filter (fun x => !(decide (x ∈ s.visited)))).length

/-- The DFS invariant: the path consists of visited nodes and is a chain of
dependency edges, and every fully processed node (visited but off the
recursion stack) is safe. -/
def DfsInv (g : List (String × List String)) (s : DfsState) : Prop :=
  (∀ x ∈ s.path, x ∈ s.visited)
    ∧ List.Chain' (Eg g) s.path
    ∧ (∀ v ∈ s.visited, v ∉ s.path → safeNode g v)

/-- A well-formed reported cycle: nonempty, its first element equals its last,
its consecutive elements are dependency edges — and hence the graph has a
cycle. -/
def CycleSpec (g : List (String × List String)) (c : List String) : Prop :=
  c ≠ [] ∧ c.head? = c.getLast? ∧ List.Chain' (Eg g) c ∧ hasCycleG g

/-- Function `detect_circular_dependencies` (loop-runner.py:107-147). -/
def detect_circular_dependencies (fs : List Feature) : List String :=
  detectLoop (graphOf fs) (fuelFor (graphOf fs)) ((graphOf fs).map (fun p => p.1))
    { visited := [], path := [] }

/-- The scan of `get_next_feature` (loop-runner.py:609-624) over the
dependency-sorted list: skip completed or blocked items, items with an
uncompleted dependency, and — in unattended mode — items needing review. -/
def selectScan (completed : List String) (skip_needs_review : Bool) :
    List Feature → Option Feature
  | [] => none
  | f :: rest =>
    if f.passes || f.blocked then selectScan completed skip_needs_review rest
    else if !(f.dependencies.all (fun d => completed.contains d)) then
      selectScan completed skip_needs_review rest
    else if skip_needs_review && f.needs_review then
      selectScan completed skip_needs_review rest
    else some f

/-- Function `get_next_feature` (loop-runner.py:585-628). -/
def get_next_feature (fs : List Feature) (skip_needs_review : Bool) : Option Feature :=
  selectScan ((fs.filter (fun f => f.passes)).map (fun f => f.id)) skip_needs_review
    (topological_sort_features fs)

/-- A review-gate item: category `"qa"` (lowercased) or id starting with
`"qa-"` (loop-runner.py:1304-1307). -/
def qaGate (f : Feature) : Bool :=
  lowerStr f.category == "qa" || charsStartWith "qa-".data f.id.data

/-- Auto-completion's store update (loop-runner.py:1319-1322): set
`passes = true` on the first feature with the given id (the loop breaks after
the first match). -/
def markPassed : List Feature → String → List Feature
  | [], _ => []
  | f :: fs, i =>
    if f.id = i then { f with passes := true } :: fs else f :: markPassed fs i

/-- Output of one progress-evaluation pass of the session loop. -/
structure IterOut where
  features : List Feature
  failures : Nat

/-- The per-iteration progress evaluation, auto-completion and
consecutive-failure counting of the session loop (loop-runner.py:1273-1354):
newly completed features or newly appended features reset the counter;
otherwise, if the independent test run passed and the pending item is not a
review gate, it is auto-completed (resetting the counter); in every other
case the counter increments by one. -/
def progressStep (fsBefore fsAfter : List Feature) (failures : Nat)
    (tests_passed : Bool) : IterOut :=
  if completedCount fsBefore < completedCount fsAfter then
    { features := fsAfter, failures := 0 }
  else if fsBefore.length < fsAfter.length then
    { features := fsAfter, failures := 0 }
  else if tests_passed then
    match get_next_feature fsAfter false with
    | some f =>
      if qaGate f then { features := fsAfter, failures := failures + 1 }
      else { features := markPassed fsAfter f.id, failures := 0 }
    | none => { features := fsAfter, failures := failures + 1 }
  else { features := fsAfter, failures := failures + 1 }

/-- The escalation gate (loop-runner.py:1356-1362): at 3 or more consecutive
failures the loop pauses for an explicit decision; continue resets the
counter to 0, anything else aborts (`none`); below the threshold the loop
proceeds with the counter unchanged. -/
def escalate (failures : Nat) (continueChoice : Bool) : Option Nat :=
  if 3 ≤ failures then (if continueChoice then some 0 else none) else some failures

/-- Detected progress in the sense of the claim: newly completed items, newly
appended items, or a successful auto-completion. -/
def detectedProgress (fsBefore fsAfter : List Feature) (tests_passed : Bool) : Bool :=
  decide (completedCount fsBefore < completedCount fsAfter)
    || decide (fsBefore.length < fsAfter.length)
    || (tests_passed
        && (match get_next_feature fsAfter false with
            | some f => !qaGate f
            | none => false))

/-- The `passes` flag of the feature a given id denotes (`none` if absent). -/
def featPasses (fs : List Feature) (i : String) : Option Bool :=
  (fs.find? (fun f => f.id == i)).map (fun f => f.passes)

/-- Ids of the features placed so far. -/
def resIds (st : KahnSt) : List String :=
  st.result.map (fun f => f.id)

/-- Dependency-precedence property of a placement list: every in-collection
dependency of the item at position `k` was placed strictly before `k`. -/
def ordOK (fs : List Feature) (l : List Feature) : Prop :=
  ∀ (k : Nat) (hk : k < l.length), ∀ d ∈ (l.get ⟨k, hk⟩).dependencies,
    d ∈ keyIds fs → d ∈ (l.take k).map (fun f => f.id)

/-- Invariant of Kahn's algorithm.  `pend` is the list of ids scheduled for
placement but not yet placed (the unprocessed batch remainder followed by the
queue); `L` is the adjacency suffix currently being walked.  It says: placed
ids are distinct keys whose entries are their features, pending ids are
distinct keys that are neither placed nor mentioned by `L` and have all their
in-collection dependencies placed, placed ids are not mentioned by `L`
either, every counter holds the number of unplaced in-collection dependency
occurrences plus the pending decrements of `L`, a key that is neither placed
nor pending has a nonzero counter, and the placement list respects
dependency precedence. -/
def KInv (fs : List Feature) (st : KahnSt) (pend L : List String) : Prop :=
  (resIds st).Nodup
    ∧ (∀ i ∈ resIds st, i ∈ keyIds fs)
    ∧ (∀ f ∈ st.result, f = featMap fs f.id)
    ∧ pend.Nodup
    ∧ (∀ i ∈ pend, i ∈ keyIds fs)
    ∧ (∀ i ∈ pend, i ∉ resIds st)
    ∧ (∀ i ∈ pend, unplacedDeg fs (resIds st) i = 0 ∧ L.count i = 0)
    ∧ (∀ i ∈ resIds st, L.count i = 0)
    ∧ (∀ n ∈ keyIds fs,
        st.indeg n = (unplacedDeg fs (resIds st) n : Int) + (L.count n : Int))
    ∧ (∀ n ∈ keyIds fs, n ∉ resIds st → n ∉ pend → st.indeg n ≠ 0)
    ∧ ordOK fs st.result

/-- Contract of one `dfs` call at a given fuel: the visited set only grows; a
clean return restores the caller's path, marks the node visited and preserves
the invariant; a cycle return is a well-formed cycle. -/
def NodeContract (g : List (String × List String)) (fuel : Nat) : Prop :=
  ∀ (node : String) (s : DfsState),
    DfsInv g s → node ∉ s.visited → node ∈ gNodes g →
    unvisitedCount g s + 1 ≤ fuel →
    (∀ x ∈ s.path.getLast?, Eg g x node) →
    (∀ x ∈ s.visited, x ∈ (dfsNode g fuel node s).2.visited)
      ∧ ((dfsNode g fuel node s).1 = none →
          (dfsNode g fuel node s).2.path = s.path
            ∧ node ∈ (dfsNode g fuel node s).2.visited
            ∧ DfsInv g (dfsNode g fuel node s).2)
      ∧ (∀ c, (dfsNode g fuel node s).1 = some c → CycleSpec g c)

/-- Contract of the DFS neighbor loop at a given fuel: on a clean pass every
pending neighbor ends up safe. -/
def ListContract (g : List (String × List String)) (fuel : Nat) : Prop :=
  ∀ (ns : List String) (s : DfsState),
    DfsInv g s →
    (∀ n ∈ ns, n ∈ gNodes g) →
    (∀ n ∈ ns, ∀ x ∈ s.path.getLast?, Eg g x n) →
    unvisitedCount g s + 1 ≤ fuel →
    (∀ x ∈ s.visited, x ∈ (visitList (dfsNode g fuel) ns s).2.visited)
      ∧ ((visitList (dfsNode g fuel) ns s).1 = none →
          (visitList (dfsNode g fuel) ns s).2.path = s.path
            ∧ DfsInv g (visitList (dfsNode g fuel) ns s).2
            ∧ (∀ n ∈ ns, safeNode g n))
      ∧ (∀ c, (visitList (dfsNode g fuel) ns s).1 = some c → CycleSpec g c)

-- ============================================================
-- THEOREMS
-- ============================================================

/-- C1: the reconciliation ledger lookup is a substring match, not a
whole-token match: the ids `"feat-1"` and `"feat-12"` are distinct, the first
is a prefix of the second, and a ledger holding only the completion marker for
`"feat-12"` makes the lookup for `"feat-1"` report a completion as well —
refuting the claim that a marker for the longer id never causes the lookup for
the shorter id to report a completion for the wrong item. -/
theorem C1_substring_collision :
    "feat-1" ≠ "feat-12"
      ∧ charsStartWith "feat-1".data "feat-12".data = true
      ∧ is_feature_in_git_history ["session: completed feat-12"] "feat-12" = true
      ∧ is_feature_in_git_history ["session: completed feat-12"] "feat-1" = true := by
  refine ⟨by decide, by decide, by decide, by decide⟩

/-- C2: the store is persisted by truncating the target file in place and then
streaming the new content into it (`open(file, "w")` + `json.dump`), with no
write-temp-then-rename step: a crash right after the truncating open — i.e.
after the one-element prefix of the write sequence — leaves the store file
empty, which is neither the previous good content nor the new content (and an
empty file is not a syntactically valid JSON store).  This refutes atomicity
with respect to partial writes. -/
theorem C2_interrupted_write :
    fileContentAfter "feature_list.json" "OLDSTORE"
        ((save_store_ops "feature_list.json" "NEWSTORE").take 1) = ""
      ∧ fileContentAfter "feature_list.json" "OLDSTORE"
          (save_store_ops "feature_list.json" "NEWSTORE") = "NEWSTORE"
      ∧ ("" : String) ≠ "OLDSTORE"
      ∧ ("" : String) ≠ "NEWSTORE" := by
  refine ⟨by decide, by decide, by decide, by decide⟩

/-- C3: reconciliation is idempotent, write-minimal and monotonic: for every
ledger and collection, a second run right after a first one performs zero
mutations and leaves the collection unchanged; a run that fixes nothing
returns the collection unchanged and does not rewrite the store file; and each
item's `passes` flag after a run is its old flag OR the ledger evidence — so a
flag is only ever flipped from false to true. -/
theorem C3_reconcile_idempotent (ledger : List String) (features : List Feature) :
    (sync_features_with_git ledger (sync_features_with_git ledger features).1).2 = 0
      ∧ (sync_features_with_git ledger (sync_features_with_git ledger features).1).1
          = (sync_features_with_git ledger features).1
      ∧ ((sync_features_with_git ledger features).2 = 0 →
          (sync_features_with_git ledger features).1 = features
            ∧ syncWritesStore ledger features = false)
      ∧ List.Forall₂
          (fun a b => b.passes = (a.passes || is_feature_in_git_history ledger a.id))
          features (sync_features_with_git ledger features).1 := by
  induction features with
  | nil => simp [sync_features_with_git, syncWritesStore]
  | cons f rest ih =>
    obtain ⟨ih1, ih2, ih3, ih4⟩ := ih
    by_cases hcond : (!f.passes && is_feature_in_git_history ledger f.id) = true
    · have hpass : f.passes = false := by
        rcases Bool.and_eq_true .. |>.mp hcond with ⟨h1, _⟩
        simpa using h1
      have hgit : is_feature_in_git_history ledger f.id = true :=
        (Bool.and_eq_true .. |>.mp hcond).2
      refine ⟨?_, ?_, ?_, ?_⟩
      · simp only [sync_features_with_git, hcond, if_true]
        simp [sync_features_with_git, ih1]
      · simp only [sync_features_with_git, hcond, if_true]
        simp [sync_features_with_git, ih2]
      · intro h
        exfalso
        simp only [sync_features_with_git, hcond, if_true] at h
        omega
      · simp only [sync_features_with_git, hcond, if_true]
        exact List.Forall₂.cons (by simp [hpass, hgit]) ih4
    · have hsplit : f.passes = true ∨ is_feature_in_git_history ledger f.id = false := by
        rcases Bool.eq_false_iff.mpr hcond |>.symm with _
        by_cases hp : f.passes
        · exact Or.inl hp
        · right
          by_cases hg : is_feature_in_git_history ledger f.id
          · exact absurd (by simp [hp, hg]) hcond
          · simpa using hg
      refine ⟨?_, ?_, ?_, ?_⟩
      · simp only [sync_features_with_git, hcond, if_false]
        have : (!f.passes && is_feature_in_git_history ledger f.id) = false := by
          simpa using hcond
        simp [sync_features_with_git, this, ih1]
      · simp only [sync_features_with_git, hcond, if_false]
        have : (!f.passes && is_feature_in_git_history ledger f.id) = false := by
          simpa using hcond
        simp [sync_features_with_git, this, ih2]
      · intro h
        simp only [sync_features_with_git, hcond, if_false] at h
        obtain ⟨h1, h2⟩ := ih3 h
        constructor
        · simp only [sync_features_with_git, hcond, if_false]
          simp [h1]
        · simp only [syncWritesStore, sync_features_with_git, hcond, if_false]
          simpa [syncWritesStore] using h2
      · simp only [sync_features_with_git, hcond, if_false]
        refine List.Forall₂.cons ?_ ih4
        rcases hsplit with hp | hg
        · simp [hp]
        · have hp : f.passes = f.passes || false := by simp
          simp [hg]

/-- C3 witness: the idempotence/minimality statement instantiated at a
concrete ledger and collection, with its inner hypothesis discharged. -/
theorem C3_reconcile_idempotent_witness :
    (sync_features_with_git ["session: completed a"]
        (sync_features_with_git ["session: completed a"] [{ id := "a" }]).1).2 = 0
      ∧ (sync_features_with_git ["session: completed a"]
          (sync_features_with_git ["session: completed a"] [{ id := "a" }]).1).1
          = (sync_features_with_git ["session: completed a"] [{ id := "a" }]).1
      ∧ ((sync_features_with_git ["session: completed a"] [{ id := "a" }]).2 = 0 →
          (sync_features_with_git ["session: completed a"] [{ id := "a" }]).1 = [{ id := "a" }]
            ∧ syncWritesStore ["session: completed a"] [{ id := "a" }] = false)
      ∧ List.Forall₂
          (fun (a b : Feature) =>
            b.passes = (a.passes || is_feature_in_git_history ["session: completed a"] a.id))
          [{ id := "a" }]
          (sync_features_with_git ["session: completed a"] [{ id := "a" }]).1 :=
  C3_reconcile_idempotent ["session: completed a"] [{ id := "a" }]

/-- C9: the Complexity Classifier returns the manual override verbatim for
every feature whose `complexity` field is one of high, medium, low, regardless
of every other field. -/
theorem C9_manual_override (f : Feature)
    (h : f.complexity = "high" ∨ f.complexity = "medium" ∨ f.complexity = "low") :
    get_feature_complexity f = f.complexity := by
  rcases h with h | h | h
  · simp [get_feature_complexity, h, show lowerStr "high" = "high" from by decide]
  · simp [get_feature_complexity, h, show lowerStr "medium" = "medium" from by decide]
  · simp [get_feature_complexity, h, show lowerStr "low" = "low" from by decide]

/-- C9 witness: a feature stuffed with high-risk keywords, many dependencies
and tests, but a manual `complexity` override `"medium"`: the classifier
returns the override. -/
theorem C9_manual_override_witness :
    get_feature_complexity
        { id := "x", name := "security auth crypto", description := "password injection rbac",
          category := "security", dependencies := ["a", "b", "c", "d", "e"],
          tests := ["1", "2", "3", "4", "5", "6"], complexity := "medium" }
      = Feature.complexity
          { id := "x", name := "security auth crypto", description := "password injection rbac",
            category := "security", dependencies := ["a", "b", "c", "d", "e"],
            tests := ["1", "2", "3", "4", "5", "6"], complexity := "medium" } :=
  C9_manual_override _ (Or.inr (Or.inl rfl))

/-- C10: for every collection `completed + remaining = total`; the blocked
count tallies the `blocked` flag independently of `passes`; and on a concrete
collection where one item has both `passes = true` and `blocked = true` the
item is counted both as completed and as blocked, and the loop's
blocked-terminal test `remaining == blocked` is satisfied even though the one
actually-remaining item is not blocked. -/
theorem C10_status_arithmetic :
    (∀ features : List Feature,
        (get_feature_status features).completed + (get_feature_status features).remaining
            = (get_feature_status features).total
          ∧ (get_feature_status features).blocked
              = (features.filter (fun f => f.blocked)).length)
      ∧ (get_feature_status
            [{ id := "a", passes := true, blocked := true }, { id := "b" }]).remaining
          = (get_feature_status
              [{ id := "a", passes := true, blocked := true }, { id := "b" }]).blocked
      ∧ (get_feature_status
            [{ id := "a", passes := true, blocked := true }, { id := "b" }]).completed = 1
      ∧ (get_feature_status
            [{ id := "a", passes := true, blocked := true }, { id := "b" }]).blocked = 1 := by
  refine ⟨?_, by decide, by decide, by decide⟩
  intro features
  constructor
  · have h := List.length_filter_le (fun f => f.passes) features
    simp only [get_feature_status, completedCount]
    omega
  · rfl

-- Helper lemmas about the embedded scheduler -------------------------------

theorem insertStable_perm (key : String → Int) (x : String) (l : List String) :
    (insertStable key x l).Perm (x :: l) := by
  induction l with
  | nil => exact List.Perm.refl _
  | cons y ys ih =>
    by_cases h : key y < key x
    · simpa [insertStable, h] using (ih.cons y).trans (List.Perm.swap x y ys)
    · simp [insertStable, h]

theorem stableSortBy_perm (key : String → Int) (l : List String) :
    (stableSortBy key l).Perm l := by
  induction l with
  | nil => exact List.Perm.refl _
  | cons x xs ih => exact (insertStable_perm key x _).trans (ih.cons x)

theorem featMap_mem {fs : List Feature} {i : String} (h : i ∈ keyIds fs) :
    featMap fs i ∈ fs ∧ (featMap fs i).id = i := by
  induction fs with
  | nil => simp [keyIds] at h
  | cons f rest ih =>
    by_cases hf : f.id = i
    · have hp : (f.id == i) = true := by simpa using hf
      constructor
      · simp [featMap, List.find?, hp]
      · simp [featMap, List.find?, hp, hf]
    · have hp : (f.id == i) = false := by simpa using hf
      have hi : i ∈ keyIds rest := by
        rcases by simpa [keyIds] using h with h' | h'
        · exact absurd h'.symm hf
        · simpa [keyIds] using h'
      have hrw : featMap (f :: rest) i = featMap rest i := by
        simp [featMap, List.find?, hp]
      rw [hrw]
      exact ⟨List.mem_cons_of_mem _ (ih hi).1, (ih hi).2⟩

theorem adjOf_mem_keys {fs : List Feature} {d n : String} (h : n ∈ adjOf fs d) :
    n ∈ keyIds fs := by
  unfold adjOf at h
  split at h
  · rcases List.mem_flatten.mp h with ⟨l, hl, hn⟩
    rcases List.mem_map.mp hl with ⟨f, hf, rfl⟩
    rcases List.mem_map.mp hn with ⟨_, _, rfl⟩
    exact List.mem_map.mpr ⟨f, hf, rfl⟩
  · simp at h

theorem processNbrs_result (st : KahnSt) (L : List String) :
    (processNbrs st L).result = st.result := by
  induction L generalizing st with
  | nil => rfl
  | cons n ns ih => simpa [processNbrs, stepDec] using ih (stepDec st n)

theorem processNbrs_queue_mem {st : KahnSt} {L : List String} {q : String}
    (hq : q ∈ (processNbrs st L).queue) : q ∈ st.queue ∨ q ∈ L := by
  induction L generalizing st with
  | nil => exact Or.inl hq
  | cons n ns ih =>
    rcases @ih (stepDec st n) hq with h | h
    · by_cases hv : st.indeg n - 1 = 0
      · rcases by simpa [stepDec, hv] using h with h' | h'
        · exact Or.inl h'
        · exact Or.inr (by simp [h'])
      · exact Or.inl (by simpa [stepDec, hv] using h)
    · exact Or.inr (List.mem_cons_of_mem _ h)

theorem placeOne_result (fs : List Feature) (st : KahnSt) (i : String) :
    (placeOne fs st i).result = st.result ++ [featMap fs i] := by
  simp [placeOne, processNbrs_result]

/-- Invariant: every placed feature belongs to the collection and every queued
id is a key. -/
def KQinv (fs : List Feature) (st : KahnSt) : Prop :=
  (∀ f ∈ st.result, f ∈ fs) ∧ (∀ q ∈ st.queue, q ∈ keyIds fs)

theorem placeOne_KQinv {fs : List Feature} {st : KahnSt} {i : String}
    (h : KQinv fs st) (hi : i ∈ keyIds fs) : KQinv fs (placeOne fs st i) := by
  constructor
  · intro f hf
    rw [placeOne_result] at hf
    rcases List.mem_append.mp hf with hf | hf
    · exact h.1 f hf
    · have := (featMap_mem hi).1
      simpa using List.mem_singleton.mp hf ▸ this
  · intro q hq
    unfold placeOne at hq
    rcases processNbrs_queue_mem hq with hq | hq
    · exact h.2 q hq
    · exact adjOf_mem_keys hq

theorem processBatch_KQinv {fs : List Feature} {batch : List String} {st : KahnSt}
    (h : KQinv fs st) (hb : ∀ i ∈ batch, i ∈ keyIds fs) :
    KQinv fs (processBatch fs st batch) := by
  induction batch generalizing st with
  | nil => exact h
  | cons i rest ih =>
    exact ih (placeOne_KQinv h (hb i (List.mem_cons_self _ _)))
      (fun j hj => hb j (List.mem_cons_of_mem _ hj))

theorem kahnRun_KQinv {fs : List Feature} {fuel : Nat} {st : KahnSt}
    (h : KQinv fs st) : KQinv fs (kahnRun fs fuel st) := by
  induction fuel generalizing st with
  | zero => exact h
  | succ fuel ih =>
    unfold kahnRun
    by_cases hq : st.queue = []
    · simpa [hq] using h
    · rw [if_neg hq]
      refine ih (processBatch_KQinv ⟨h.1, by simp⟩ ?_)
      intro i hi
      exact h.2 i ((stableSortBy_perm (prioKey fs) st.queue).mem_iff.mp hi)

theorem mem_of_mem_topSort {fs : List Feature} {f : Feature}
    (h : f ∈ topological_sort_features fs) : f ∈ fs := by
  simp only [topological_sort_features] at h
  have hinv : KQinv fs
      (kahnRun fs (fs.length + 1)
        { indeg := initInDegree fs, queue := initQueue fs, result := [] }) := by
    refine kahnRun_KQinv ⟨by simp, ?_⟩
    intro q hq
    exact List.mem_of_mem_filter hq
  split at h
  · rcases List.mem_append.mp h with h | h
    · exact hinv.1 f h
    · exact List.mem_of_mem_filter h
  · exact hinv.1 f h

theorem selectScan_spec {completed : List String} {skip : Bool} {l : List Feature}
    {f : Feature} (h : selectScan completed skip l = some f) :
    f ∈ l ∧ f.passes = false ∧ f.blocked = false
      ∧ (∀ d ∈ f.dependencies, d ∈ completed)
      ∧ (skip = true → f.needs_review = false) := by
  induction l with
  | nil => simp [selectScan] at h
  | cons x rest ih =>
    unfold selectScan at h
    by_cases h1 : (x.passes || x.blocked) = true
    · rw [if_pos h1] at h
      have := ih h
      exact ⟨List.mem_cons_of_mem _ this.1, this.2⟩
    · rw [if_neg (by simpa using h1)] at h
      by_cases h2 : (!(x.dependencies.all (fun d => completed.contains d))) = true
      · rw [if_pos h2] at h
        have := ih h
        exact ⟨List.mem_cons_of_mem _ this.1, this.2⟩
      · rw [if_neg (by simpa using h2)] at h
        by_cases h3 : (skip && x.needs_review) = true
        · rw [if_pos h3] at h
          have := ih h
          exact ⟨List.mem_cons_of_mem _ this.1, this.2⟩
        · rw [if_neg (by simpa using h3)] at h
          have hx : x = f := by simpa using h
          subst hx
          have hpb : x.passes = false ∧ x.blocked = false := by
            constructor
            · by_cases hb : x.passes = true
              · exact absurd (by simp [hb]) h1
              · simpa using hb
            · by_cases hb : x.blocked = true
              · exact absurd (by simp [hb]) h1
              · simpa using hb
          refine ⟨List.mem_cons_self _ _, hpb.1, hpb.2, ?_, ?_⟩
          · intro d hd
            have hall : x.dependencies.all (fun d => completed.contains d) = true := by
              simpa using h2
            simpa using List.all_eq_true.mp hall d hd
          · intro hskip
            by_cases hr : x.needs_review = true
            · exact absurd (by simp [hskip, hr]) h3
            · simpa using hr

theorem featPasses_markPassed_ne (fs : List Feature) (i j : String) (hij : i ≠ j) :
    featPasses (markPassed fs i) j = featPasses fs j := by
  induction fs with
  | nil => rfl
  | cons f rest ih =>
    by_cases hf : f.id = i
    · have hj : (f.id == j) = false := by
        simp only [beq_eq_false_iff_ne, ne_eq]
        intro h
        exact hij (hf.symm.trans h)
      have hij2 : (i == j) = false := by simpa using hij
      simp [markPassed, hf, featPasses, List.find?, hj, hij2]
    · by_cases hj : (f.id == j) = true
      · simp [markPassed, hf, featPasses, List.find?, hj]
      · have hj' : (f.id == j) = false := by simpa using hj
        simp only [markPassed, hf, if_false, featPasses, List.find?, hj']
        simpa [featPasses] using ih

theorem feature_id_inj {fs : List Feature} (h : (keyIds fs).Nodup)
    {a b : Feature} (ha : a ∈ fs) (hb : b ∈ fs) (hid : a.id = b.id) : a = b :=
  List.inj_on_of_nodup_map h ha hb hid

theorem progressStep_features_cases (fsBefore fsAfter : List Feature) (k : Nat)
    (tp : Bool) :
    (progressStep fsBefore fsAfter k tp).features = fsAfter
      ∨ ∃ f, get_next_feature fsAfter false = some f ∧ qaGate f = false
          ∧ (progressStep fsBefore fsAfter k tp).features = markPassed fsAfter f.id := by
  unfold progressStep
  by_cases h1 : completedCount fsBefore < completedCount fsAfter
  · simp [h1]
  · rw [if_neg h1]
    by_cases h2 : fsBefore.length < fsAfter.length
    · simp [h2]
    · rw [if_neg h2]
      cases tp with
      | false => simp
      | true =>
        rw [if_pos rfl]
        rcases hsel : get_next_feature fsAfter false with _ | f
        · simp [hsel]
        · by_cases hq : qaGate f = true
          · simp [hsel, hq]
          · have hq' : qaGate f = false := by simpa using hq
            right
            exact ⟨f, rfl, hq', by simp [hq']⟩

/-- C6: for every collection, an item returned by the Scheduler's next-item
selection belongs to the collection, has `passes = false` and
`blocked = false`, every one of its declared dependencies is the id of an
item whose `passes` is true (so no item with an uncompleted dependency is
ever returned), and with `skipReview` set it has `needs_review = false`. -/
theorem C6_scheduler_respects_deps (fs : List Feature) (skip : Bool) (f : Feature)
    (hnodup : (keyIds fs).Nodup) (hsel : get_next_feature fs skip = some f) :
    f ∈ fs
      ∧ f.passes = false
      ∧ f.blocked = false
      ∧ (∀ d ∈ f.dependencies, ∃ g ∈ fs, g.id = d ∧ g.passes = true)
      ∧ (∀ g ∈ fs, g.id ∈ f.dependencies → g.passes = true)
      ∧ (skip = true → f.needs_review = false) := by
  unfold get_next_feature at hsel
  have hspec := selectScan_spec hsel
  have hdeps : ∀ d ∈ f.dependencies, ∃ g ∈ fs, g.id = d ∧ g.passes = true := by
    intro d hd
    have hmem := hspec.2.2.2.1 d hd
    rcases List.mem_map.mp hmem with ⟨g, hg, rfl⟩
    exact ⟨g, List.mem_of_mem_filter hg, rfl, by simpa using List.of_mem_filter hg⟩
  refine ⟨mem_of_mem_topSort hspec.1, hspec.2.1, hspec.2.2.1, hdeps, ?_, hspec.2.2.2.2⟩
  intro g hg hgd
  rcases hdeps g.id hgd with ⟨g', hg', hid, hpass⟩
  rwa [feature_id_inj hnodup hg hg' hid.symm]

/-- C6 witness: with item `"b"` completed and item `"a"` depending on it, the
Scheduler returns `"a"`; the selection guarantees hold at this instance. -/
theorem C6_scheduler_respects_deps_witness :
    ({ id := "a", dependencies := ["b"] } : Feature)
        ∈ [({ id := "b", passes := true } : Feature), { id := "a", dependencies := ["b"] }]
      ∧ Feature.passes { id := "a", dependencies := ["b"] } = false
      ∧ Feature.blocked { id := "a", dependencies := ["b"] } = false
      ∧ (∀ d ∈ Feature.dependencies { id := "a", dependencies := ["b"] },
          ∃ g ∈ [({ id := "b", passes := true } : Feature), { id := "a", dependencies := ["b"] }],
            g.id = d ∧ g.passes = true)
      ∧ (∀ g ∈ [({ id := "b", passes := true } : Feature), { id := "a", dependencies := ["b"] }],
          g.id ∈ Feature.dependencies { id := "a", dependencies := ["b"] } → g.passes = true)
      ∧ (false = true →
          Feature.needs_review { id := "a", dependencies := ["b"] } = false) :=
  C6_scheduler_respects_deps
    [{ id := "b", passes := true }, { id := "a", dependencies := ["b"] }]
    false { id := "a", dependencies := ["b"] } (by decide) (by decide)

/-- C7: the session loop's auto-completion step never sets `passes = true`
for a review-gate item (category `"qa"` or id starting with `"qa-"`): such an
item's stored `passes` flag is unchanged by the progress-evaluation pass, and
whenever the pending item itself is a review gate the collection is left
entirely unchanged, regardless of the independent test result. -/
theorem C7_no_qa_auto_complete (fsBefore fsAfter : List Feature) (k : Nat) (tp : Bool)
    (hnodup : (keyIds fsAfter).Nodup) (g : Feature) (hg : g ∈ fsAfter)
    (hqa : qaGate g = true) :
    featPasses (progressStep fsBefore fsAfter k tp).features g.id = featPasses fsAfter g.id
      ∧ (∀ f, get_next_feature fsAfter false = some f → qaGate f = true →
          (progressStep fsBefore fsAfter k tp).features = fsAfter) := by
  constructor
  · rcases progressStep_features_cases fsBefore fsAfter k tp with hcase | ⟨f, hf, hqf, hcase⟩
    · rw [hcase]
    · rw [hcase]
      have hfm : f ∈ fsAfter := by
        unfold get_next_feature at hf
        exact mem_of_mem_topSort (selectScan_spec hf).1
      have hne : f.id ≠ g.id := by
        intro he
        have hfg := feature_id_inj hnodup hfm hg he
        rw [hfg, hqa] at hqf
        exact Bool.noConfusion hqf
      exact featPasses_markPassed_ne fsAfter f.id g.id hne
  · intro f hf hqf
    rcases progressStep_features_cases fsBefore fsAfter k tp with hcase | ⟨f', hf', hqf', hcase⟩
    · exact hcase
    · rw [hf] at hf'
      have : f = f' := by simpa using hf'
      rw [← this, hqf] at hqf'
      exact absurd hqf' (by simp)

/-- C7 witness: a collection whose only pending item is the review-gate item
`"qa-1"`, with tests passing: its `passes` flag is untouched and the
collection is unchanged. -/
theorem C7_no_qa_auto_complete_witness :
    featPasses
        (progressStep [{ id := "qa-1", category := "qa" }]
            [{ id := "qa-1", category := "qa" }] 0 true).features
        (Feature.id { id := "qa-1", category := "qa" })
      = featPasses [{ id := "qa-1", category := "qa" }]
          (Feature.id { id := "qa-1", category := "qa" })
    ∧ (∀ f, get_next_feature [({ id := "qa-1", category := "qa" } : Feature)] false = some f →
        qaGate f = true →
        (progressStep [{ id := "qa-1", category := "qa" }]
            [{ id := "qa-1", category := "qa" }] 0 true).features
          = [{ id := "qa-1", category := "qa" }]) :=
  C7_no_qa_auto_complete [{ id := "qa-1", category := "qa" }]
    [{ id := "qa-1", category := "qa" }] 0 true (by decide)
    { id := "qa-1", category := "qa" } (by decide) (by decide)

/-- C8: the consecutive-failure counter after one session-loop iteration is 0
exactly when the iteration detected progress (newly completed items, newly
appended items, or a successful auto-completion) and otherwise is the old
counter plus exactly 1; once the counter is at the threshold 3 (or beyond)
the escalation gate requires an explicit decision — continue resets the
counter to 0 and abort ends the loop — while below the threshold the loop
proceeds with the counter unchanged. -/
theorem C8_failure_counter (fsBefore fsAfter : List Feature) (k : Nat) (tp : Bool) :
    ((progressStep fsBefore fsAfter k tp).failures
        = if detectedProgress fsBefore fsAfter tp then 0 else k + 1)
      ∧ (∀ m : Nat, 3 ≤ m → escalate m true = some 0 ∧ escalate m false = none)
      ∧ (∀ m : Nat, m < 3 → ∀ c : Bool, escalate m c = some m) := by
  refine ⟨?_, ?_, ?_⟩
  · unfold progressStep detectedProgress
    by_cases h1 : completedCount fsBefore < completedCount fsAfter
    · simp [h1]
    · rw [if_neg h1]
      by_cases h2 : fsBefore.length < fsAfter.length
      · simp [h1, h2]
      · rw [if_neg h2]
        cases tp with
        | false => simp [h1, h2]
        | true =>
          rw [if_pos rfl]
          rcases hsel : get_next_feature fsAfter false with _ | f
          · simp [h1, h2, hsel]
          · by_cases hq : qaGate f = true
            · simp [h1, h2, hsel, hq]
            · have hq' : qaGate f = false := by simpa using hq
              simp [h1, h2, hsel, hq']
  · intro m hm
    constructor <;> simp [escalate, hm]
  · intro m hm c
    rw [escalate, if_neg (by omega)]

/-- C8 witness: the counter equation and the threshold behavior instantiated
at concrete inputs (an empty no-progress iteration with counter 2, the gate
at 3 for both decisions, and the gate below the threshold). -/
theorem C8_failure_counter_witness :
    ((progressStep ([] : List Feature) ([] : List Feature) 2 false).failures
        = if detectedProgress ([] : List Feature) ([] : List Feature) false then 0 else 2 + 1)
      ∧ (escalate 3 true = some 0 ∧ escalate 3 false = none)
      ∧ escalate 2 true = some 2 :=
  ⟨(C8_failure_counter [] [] 2 false).1,
    (C8_failure_counter [] [] 2 false).2.1 3 (by decide),
    (C8_failure_counter [] [] 2 false).2.2 2 (by decide) true⟩

-- Helper lemmas about the embedded cycle detection -------------------------

theorem dropUntil_suffix (x : String) (l : List String) :
    (dropUntil x l).IsSuffix l := by
  induction l with
  | nil => simp [dropUntil]
  | cons a as ih =>
    by_cases h : a = x
    · simp [dropUntil, h]
    · rw [dropUntil, if_neg h]
      exact ih.trans (List.suffix_cons a as)

theorem dropUntil_head {x : String} {l : List String} (h : x ∈ l) :
    (dropUntil x l).head? = some x := by
  induction l with
  | nil => simp at h
  | cons a as ih =>
    by_cases ha : a = x
    · simp [dropUntil, ha]
    · have hx : x ∈ as := by
        rcases List.mem_cons.mp h with h' | h'
        · exact absurd h'.symm ha
        · exact h'
      rw [dropUntil, if_neg ha]
      exact ih hx

theorem dropUntil_ne_nil {x : String} {l : List String} (h : x ∈ l) :
    dropUntil x l ≠ [] := by
  intro hc
  have := dropUntil_head h
  rw [hc] at this
  simp at this

theorem dropUntil_getLast {x : String} {l : List String} (h : x ∈ l) :
    (dropUntil x l).getLast? = l.getLast? := by
  rcases dropUntil_suffix x l with ⟨t, ht⟩
  have hne := dropUntil_ne_nil h
  rcases hg : (dropUntil x l).getLast? with _ | v
  · exact absurd (List.getLast?_eq_none_iff.mp hg) hne
  · conv_rhs => rw [← ht]
    rw [List.getLast?_append, hg]
    rfl

theorem chain_to_rtg {g : List (String × List String)} :
    ∀ (a : String) (l : List String),
      List.Chain' (Eg g) (a :: l) →
        ∀ x ∈ (a :: l).getLast?, Relation.ReflTransGen (Eg g) a x := by
  intro a l
  induction l generalizing a with
  | nil =>
    intro _ x hx
    have hx' : a = x := by simpa using hx
    rw [hx']
  | cons b bs ih =>
    intro hc x hx
    have h1 := (List.chain'_cons.mp hc).1
    have h2 := (List.chain'_cons.mp hc).2
    have hx' : x ∈ (b :: bs).getLast? := by simpa using hx
    exact Relation.ReflTransGen.head h1 (ih b h2 x hx')

theorem safe_of_succs {g : List (String × List String)} (v : String)
    (h : ∀ b, Eg g v b → safeNode g b) : safeNode g v := by
  intro w hw hcyc
  rcases Relation.ReflTransGen.cases_head hw with heq | ⟨b, hvb, hbw⟩
  · rcases Relation.TransGen.head'_iff.mp hcyc with ⟨b, hwb, hbw⟩
    have hvb : Eg g v b := by rw [heq]; exact hwb
    exact h b hvb w hbw hcyc
  · exact h b hvb w hbw hcyc

theorem cycle_of_revisit {g : List (String × List String)} {p : List String}
    {n : String} (hchain : List.Chain' (Eg g) p)
    (hlast : ∀ x ∈ p.getLast?, Eg g x n) (hn : n ∈ p) :
    CycleSpec g (dropUntil n p ++ [n]) := by
  have hsuf := dropUntil_suffix n p
  have hchain2 : List.Chain' (Eg g) (dropUntil n p) := hchain.suffix hsuf
  have hne := dropUntil_ne_nil hn
  have hhead := dropUntil_head hn
  have hlasteq := dropUntil_getLast hn
  have hchainc : List.Chain' (Eg g) (dropUntil n p ++ [n]) := by
    rw [List.chain'_append]
    refine ⟨hchain2, by simp, ?_⟩
    intro x hx y hy
    have hy' : n = y := by simpa using hy
    rw [← hy']
    exact hlast x (hlasteq ▸ hx)
  refine ⟨by simp, ?_, hchainc, ?_⟩
  · rw [List.getLast?_concat, List.head?_append, hhead]
    rfl
  · rcases hd : dropUntil n p with _ | ⟨n1, rest⟩
    · exact absurd hd hne
    · have hn1 : n1 = n := by
        rw [hd] at hhead
        simpa using hhead
      rw [hn1] at hd
      rw [hd] at hchainc
      have hcons : List.Chain' (Eg g) (n :: (rest ++ [n])) := by
        simpa using hchainc
      rcases hr : rest ++ [n] with _ | ⟨b, l2⟩
      · exact absurd hr (by simp)
      · rw [hr] at hcons
        have hedge := (List.chain'_cons.mp hcons).1
        have hrest := (List.chain'_cons.mp hcons).2
        have hlastb : (b :: l2).getLast? = some n := by
          rw [← hr, List.getLast?_concat]
        have hrtg := chain_to_rtg b l2 hrest n hlastb
        exact ⟨n, Relation.TransGen.head' hedge hrtg⟩

theorem filter_length_lt {l : List String} {p q : String → Bool}
    (hpq : ∀ x, p x = true → q x = true) {a : String} (ha : a ∈ l)
    (hpa : p a = false) (hqa : q a = true) :
    (l.filter p).length < (l.filter q).length := by
  induction l with
  | nil => simp at ha
  | cons b bs ih =>
    rcases List.mem_cons.mp ha with rfl | hmem
    · rw [List.filter_cons_of_neg (by simpa using hpa),
        List.filter_cons_of_pos (by simpa using hqa)]
      have hle := (List.monotone_filter_right bs hpq).length_le
      simp only [List.length_cons]
      omega
    · by_cases hb : p b = true
      · rw [List.filter_cons_of_pos hb, List.filter_cons_of_pos (hpq b hb)]
        simpa using ih hmem
      · rw [List.filter_cons_of_neg (by simpa using hb)]
        have hlt := ih hmem
        by_cases hqb : q b = true
        · rw [List.filter_cons_of_pos hqb]
          simp only [List.length_cons]
          omega
        · rw [List.filter_cons_of_neg (by simpa using hqb)]
          exact hlt

theorem unvisitedCount_mono {g : List (String × List String)} {s s2 : DfsState}
    (h : ∀ x ∈ s.visited, x ∈ s2.visited) :
    unvisitedCount g s2 ≤ unvisitedCount g s := by
  unfold unvisitedCount
  refine (List.monotone_filter_right _ ?_).length_le
  intro a hc
  simp only [Bool.not_eq_true', decide_eq_false_iff_not] at hc ⊢
  intro hmem
  exact hc (h a hmem)

theorem unvisitedCount_insert_lt {g : List (String × List String)} {s : DfsState}
    {node : String} {p2 : List String} (hmem : node ∈ gNodes g)
    (hnv : node ∉ s.visited) :
    unvisitedCount g { visited := node :: s.visited, path := p2 } < unvisitedCount g s := by
  unfold unvisitedCount
  refine filter_length_lt ?_ hmem ?_ ?_
  · intro x hx
    simp only [Bool.not_eq_true', decide_eq_false_iff_not] at hx ⊢
    intro hm
    exact hx (List.mem_cons_of_mem _ hm)
  · simp
  · simpa using hnv

theorem lookupG_mem_gNodes {g : List (String × List String)} {a d : String}
    (h : d ∈ lookupG g a) : d ∈ gNodes g := by
  unfold lookupG at h
  rcases hf : g.find? (fun p => p.1 == a) with _ | p
  · rw [hf] at h
    simp at h
  · rw [hf] at h
    simp only [Option.map_some', Option.getD_some] at h
    have hpmem := List.mem_of_find?_eq_some hf
    unfold gNodes
    refine List.mem_append.mpr (Or.inr ?_)
    exact List.mem_flatten.mpr ⟨p.2, List.mem_map.mpr ⟨p, hpmem, rfl⟩, h⟩

theorem Eg_mem_keys {g : List (String × List String)} {a b : String}
    (h : Eg g a b) : a ∈ g.map (fun p => p.1) := by
  unfold Eg lookupG at h
  rcases hf : g.find? (fun p => p.1 == a) with _ | p
  · rw [hf] at h
    simp at h
  · have hp := List.find?_some hf
    have hm := List.mem_of_find?_eq_some hf
    exact List.mem_map.mpr ⟨p, hm, by simpa using hp⟩

theorem dfs_contracts (g : List (String × List String)) :
    ∀ fuel : Nat, NodeContract g fuel ∧ ListContract g fuel := by
  intro fuel
  induction fuel with
  | zero =>
    constructor
    · intro node s _ _ _ hfuel _
      omega
    · intro ns s _ _ _ hfuel
      omega
  | succ fuel ih =>
    have hP : NodeContract g (fuel + 1) := by
      intro node s hinv hnv hmem hfuel hsucc
      have hinv1 : DfsInv g ⟨node :: s.visited, s.path ++ [node]⟩ := by
        refine ⟨?_, ?_, ?_⟩
        · intro x hx
          rcases List.mem_append.mp hx with hx | hx
          · exact List.mem_cons_of_mem _ (hinv.1 x hx)
          · have hx' : x = node := by simpa using hx
            rw [hx']
            exact List.mem_cons_self _ _
        · rw [List.chain'_append]
          refine ⟨hinv.2.1, by simp, ?_⟩
          intro x hx y hy
          have hy' : node = y := by simpa using hy
          rw [← hy']
          exact hsucc x hx
        · intro v hv hvp
          have hvn : v ≠ node := by
            intro h
            exact hvp (by rw [h]; exact List.mem_append.mpr (Or.inr (by simp)))
          have hvv : v ∈ s.visited := by
            rcases List.mem_cons.mp hv with h | h
            · exact absurd h hvn
            · exact h
          exact hinv.2.2 v hvv (fun h => hvp (List.mem_append.mpr (Or.inl h)))
      have hlt : unvisitedCount g ⟨node :: s.visited, s.path ++ [node]⟩ < unvisitedCount g s :=
        unvisitedCount_insert_lt hmem hnv
      have hQ := ih.2 (lookupG g node) ⟨node :: s.visited, s.path ++ [node]⟩ hinv1
        (fun n hn => lookupG_mem_gNodes hn)
        (by
          intro n hn x hx
          have hx' : node = x := by
            have hgl : (s.path ++ [node]).getLast? = some node :=
              List.getLast?_concat _
            rw [hgl] at hx
            simpa using hx
          rw [← hx']
          exact hn)
        (by omega)
      rcases hres : visitList (dfsNode g fuel) (lookupG g node)
          ⟨node :: s.visited, s.path ++ [node]⟩ with ⟨o, s2⟩
      rw [hres] at hQ
      cases o with
      | some c =>
        have heq : dfsNode g (fuel + 1) node s = (some c, s2) := by
          simp [dfsNode, hres]
        rw [heq]
        refine ⟨?_, by simp, ?_⟩
        · intro x hx
          exact hQ.1 x (List.mem_cons_of_mem _ hx)
        · intro c2 hc2
          have hc2' : c = c2 := by simpa using hc2
          rw [← hc2']
          exact hQ.2.2 c rfl
      | none =>
        obtain ⟨hpath2, hinv2, hsafes⟩ := hQ.2.1 rfl
        have heq : dfsNode g (fuel + 1) node s
            = (none, ⟨s2.visited, s2.path.dropLast⟩) := by
          simp [dfsNode, hres]
        rw [heq]
        have hdrop : s2.path.dropLast = s.path := by
          rw [hpath2]
          exact List.dropLast_concat
        refine ⟨?_, ?_, by simp⟩
        · intro x hx
          exact hQ.1 x (List.mem_cons_of_mem _ hx)
        · intro _
          refine ⟨hdrop, hQ.1 node (List.mem_cons_self _ _), ?_, ?_, ?_⟩
          · intro x hx
            have hx' : x ∈ s.path := by
              rw [← hdrop]
              exact hx
            exact hQ.1 x (List.mem_cons_of_mem _ (hinv.1 x hx'))
          · show List.Chain' (Eg g) s2.path.dropLast
            rw [hdrop]
            exact hinv.2.1
          · intro v hv hvp
            have hvp' : v ∉ s.path := by
              rw [← hdrop]
              exact hvp
            by_cases hvn : v = node
            · rw [hvn]
              refine safe_of_succs node ?_
              intro b hb
              exact hsafes b hb
            · have hvp2 : v ∉ s2.path := by
                rw [hpath2]
                intro hmem2
                rcases List.mem_append.mp hmem2 with h | h
                · exact hvp' h
                · exact hvn (by simpa using h)
              exact hinv2.2.2 v hv hvp2
    refine ⟨hP, ?_⟩
    intro ns s
    induction ns generalizing s with
    | nil =>
      intro hinv _ _ _
      refine ⟨fun x hx => hx, ?_, ?_⟩
      · intro _
        exact ⟨rfl, hinv, by simp⟩
      · intro c hc
        simp [visitList] at hc
    | cons n rest ihn =>
      intro hinv hns hsucc hfuel
      by_cases hv : n ∈ s.visited
      · by_cases hp : n ∈ s.path
        · have heq : visitList (dfsNode g (fuel + 1)) (n :: rest) s
              = (some (dropUntil n s.path ++ [n]), s) := by
            simp [visitList, hv, hp]
          rw [heq]
          refine ⟨fun x hx => hx, by simp, ?_⟩
          intro c hc
          have hc' : dropUntil n s.path ++ [n] = c := by simpa using hc
          rw [← hc']
          exact cycle_of_revisit hinv.2.1 (hsucc n (List.mem_cons_self _ _)) hp
        · have heq : visitList (dfsNode g (fuel + 1)) (n :: rest) s
              = visitList (dfsNode g (fuel + 1)) rest s := by
            simp [visitList, hv, hp]
          rw [heq]
          have h2 := ihn s hinv (fun m hm => hns m (List.mem_cons_of_mem _ hm))
            (fun m hm => hsucc m (List.mem_cons_of_mem _ hm)) hfuel
          refine ⟨h2.1, ?_, h2.2.2⟩
          intro hnone
          obtain ⟨ha, hb, hc⟩ := h2.2.1 hnone
          refine ⟨ha, hb, ?_⟩
          intro m hm
          rcases List.mem_cons.mp hm with hm' | hm'
          · rw [hm']
            exact hinv.2.2 n hv hp
          · exact hc m hm'
      · have hPn := hP n s hinv hv (hns n (List.mem_cons_self _ _)) hfuel
          (hsucc n (List.mem_cons_self _ _))
        rcases hres : dfsNode g (fuel + 1) n s with ⟨o, s1⟩
        rw [hres] at hPn
        cases o with
        | some c =>
          have heq : visitList (dfsNode g (fuel + 1)) (n :: rest) s = (some c, s1) := by
            simp [visitList, hv, hres]
          rw [heq]
          refine ⟨hPn.1, by simp, ?_⟩
          intro c2 hc2
          have hc2' : c = c2 := by simpa using hc2
          rw [← hc2']
          exact hPn.2.2 c rfl
        | none =>
          obtain ⟨hpath1, hnvis1, hinv1⟩ := hPn.2.1 rfl
          have heq : visitList (dfsNode g (fuel + 1)) (n :: rest) s
              = visitList (dfsNode g (fuel + 1)) rest s1 := by
            simp [visitList, hv, hres]
          rw [heq]
          have hmono : unvisitedCount g s1 ≤ unvisitedCount g s :=
            unvisitedCount_mono hPn.1
          have h2 := ihn s1 hinv1 (fun m hm => hns m (List.mem_cons_of_mem _ hm))
            (by
              intro m hm x hx
              rw [hpath1] at hx
              exact hsucc m (List.mem_cons_of_mem _ hm) x hx)
            (by omega)
          refine ⟨fun x hx => h2.1 x (hPn.1 x hx), ?_, h2.2.2⟩
          intro hnone
          obtain ⟨ha, hb, hc⟩ := h2.2.1 hnone
          refine ⟨ha.trans hpath1, hb, ?_⟩
          intro m hm
          rcases List.mem_cons.mp hm with hm' | hm'
          · rw [hm']
            refine hinv1.2.2 n hnvis1 ?_
            rw [hpath1]
            intro hmem
            exact hv (hinv.1 n hmem)
          · exact hc m hm'

theorem detectLoop_spec (g : List (String × List String)) :
    ∀ (ks : List String) (s : DfsState),
      DfsInv g s → s.path = [] → (∀ k ∈ ks, k ∈ gNodes g) →
      (detectLoop g (fuelFor g) ks s ≠ [] →
          CycleSpec g (detectLoop g (fuelFor g) ks s))
        ∧ (detectLoop g (fuelFor g) ks s = [] → ∀ k ∈ ks, safeNode g k) := by
  intro ks
  induction ks with
  | nil =>
    intro s _ _ _
    exact ⟨fun h => absurd rfl h, fun _ k hk => absurd hk (List.not_mem_nil k)⟩
  | cons k rest ih =>
    intro s hinv hpath hks
    by_cases hv : k ∈ s.visited
    · have heq : detectLoop g (fuelFor g) (k :: rest) s
          = detectLoop g (fuelFor g) rest s := by
        simp [detectLoop, hv]
      rw [heq]
      have h2 := ih s hinv hpath (fun m hm => hks m (List.mem_cons_of_mem _ hm))
      refine ⟨h2.1, ?_⟩
      intro hnil m hm
      rcases List.mem_cons.mp hm with hm' | hm'
      · rw [hm']
        refine hinv.2.2 k hv ?_
        rw [hpath]
        exact List.not_mem_nil k
      · exact h2.2 hnil m hm'
    · have hfuel : unvisitedCount g s + 1 ≤ fuelFor g := by
        have hle := List.length_filter_le
          (fun x => !(decide (x ∈ s.visited))) (gNodes g)
        unfold unvisitedCount fuelFor
        omega
      have hPk := (dfs_contracts g (fuelFor g)).1 k s hinv hv
        (hks k (List.mem_cons_self _ _)) hfuel
        (by
          intro x hx
          rw [hpath] at hx
          simp at hx)
      rcases hres : dfsNode g (fuelFor g) k s with ⟨o, s1⟩
      rw [hres] at hPk
      cases o with
      | some c =>
        have heq : detectLoop g (fuelFor g) (k :: rest) s = c := by
          simp [detectLoop, hv, hres]
        rw [heq]
        have hcs := hPk.2.2 c rfl
        exact ⟨fun _ => hcs, fun hnil => absurd hnil hcs.1⟩
      | none =>
        obtain ⟨hpath1, hkvis, hinv1⟩ := hPk.2.1 rfl
        have heq : detectLoop g (fuelFor g) (k :: rest) s
            = detectLoop g (fuelFor g) rest s1 := by
          simp [detectLoop, hv, hres]
        rw [heq]
        have h2 := ih s1 hinv1 (by rw [hpath1]; exact hpath)
          (fun m hm => hks m (List.mem_cons_of_mem _ hm))
        refine ⟨h2.1, ?_⟩
        intro hnil m hm
        rcases List.mem_cons.mp hm with hm' | hm'
        · rw [hm']
          refine hinv1.2.2 k hkvis ?_
          rw [hpath1, hpath]
          exact List.not_mem_nil k
        · exact h2.2 hnil m hm'

theorem detect_spec (fs : List Feature) :
    (detect_circular_dependencies fs ≠ [] →
        CycleSpec (graphOf fs) (detect_circular_dependencies fs))
      ∧ (detect_circular_dependencies fs = [] →
          ∀ k ∈ (graphOf fs).map (fun p => p.1), safeNode (graphOf fs) k) := by
  unfold detect_circular_dependencies
  refine detectLoop_spec (graphOf fs) ((graphOf fs).map (fun p => p.1)) ⟨[], []⟩
    ⟨by simp, by simp, by simp⟩ rfl ?_
  intro k hk
  exact List.mem_append.mpr (Or.inl hk)

/-- C5: cycle detection returns a non-empty path if and only if the
dependency graph has a cycle (so it returns `[]` for every acyclic graph); a
non-empty reported path starts and ends with the repeated node and its
consecutive elements are dependency edges; and the two-item mutual dependency
A ↔ B yields exactly the path `["A", "B", "A"]`. -/
theorem C5_cycle_detection (fs : List Feature) (hnodup : (keyIds fs).Nodup) :
    (detect_circular_dependencies fs ≠ [] ↔ hasCycleG (graphOf fs))
      ∧ (detect_circular_dependencies fs ≠ [] →
          (detect_circular_dependencies fs).head?
              = (detect_circular_dependencies fs).getLast?
            ∧ List.Chain' (Eg (graphOf fs)) (detect_circular_dependencies fs))
      ∧ detect_circular_dependencies
            [{ id := "A", dependencies := ["B"] }, { id := "B", dependencies := ["A"] }]
          = ["A", "B", "A"] := by
  have hds := detect_spec fs
  refine ⟨⟨fun h => (hds.1 h).2.2.2, ?_⟩,
    fun h => ⟨(hds.1 h).2.1, (hds.1 h).2.2.1⟩, by decide⟩
  intro hcyc
  intro hnil
  rcases hcyc with ⟨a, ha⟩
  have hmem : a ∈ (graphOf fs).map (fun p => p.1) := by
    rcases Relation.TransGen.head'_iff.mp ha with ⟨b, hab, _⟩
    exact Eg_mem_keys hab
  exact hds.2 hnil a hmem a Relation.ReflTransGen.refl ha

/-- C5 witness: the statement instantiated at the two-item mutual dependency
A ↔ B, whose unique-id hypothesis holds by computation. -/
theorem C5_cycle_detection_witness :
    (detect_circular_dependencies
          [{ id := "A", dependencies := ["B"] }, { id := "B", dependencies := ["A"] }]
        ≠ []
      ↔ hasCycleG (graphOf
          [{ id := "A", dependencies := ["B"] }, { id := "B", dependencies := ["A"] }]))
    ∧ (detect_circular_dependencies
          [{ id := "A", dependencies := ["B"] }, { id := "B", dependencies := ["A"] }]
        ≠ [] →
        (detect_circular_dependencies
            [{ id := "A", dependencies := ["B"] }, { id := "B", dependencies := ["A"] }]).head?
            = (detect_circular_dependencies
                [{ id := "A", dependencies := ["B"] },
                  { id := "B", dependencies := ["A"] }]).getLast?
          ∧ List.Chain'
              (Eg (graphOf
                [{ id := "A", dependencies := ["B"] }, { id := "B", dependencies := ["A"] }]))
              (detect_circular_dependencies
                [{ id := "A", dependencies := ["B"] }, { id := "B", dependencies := ["A"] }]))
    ∧ detect_circular_dependencies
          [{ id := "A", dependencies := ["B"] }, { id := "B", dependencies := ["A"] }]
        = ["A", "B", "A"] :=
  C5_cycle_detection
    [{ id := "A", dependencies := ["B"] }, { id := "B", dependencies := ["A"] }]
    (by decide)

-- Helper lemmas about the embedded Kahn sort -------------------------------

theorem unplacedDeg_mono {fs : List Feature} {placed placed2 : List String}
    (h : ∀ x ∈ placed, x ∈ placed2) (n : String) :
    unplacedDeg fs placed2 n ≤ unplacedDeg fs placed n := by
  unfold unplacedDeg
  refine (List.monotone_filter_right _ ?_).length_le
  intro d hd
  simp only [Bool.and_eq_true, decide_eq_true_eq, Bool.not_eq_true',
    decide_eq_false_iff_not] at hd ⊢
  exact ⟨hd.1, fun hm => hd.2 (h d hm)⟩

theorem unplacedDeg_zero_iff {fs : List Feature} {placed : List String} {n : String} :
    unplacedDeg fs placed n = 0
      ↔ ∀ d ∈ (featMap fs n).dependencies, d ∈ keyIds fs → d ∈ placed := by
  unfold unplacedDeg
  rw [List.length_eq_zero, List.filter_eq_nil_iff]
  constructor
  · intro h d hd hk
    have := h d hd
    simp only [Bool.and_eq_true, decide_eq_true_eq, Bool.not_eq_true',
      decide_eq_false_iff_not, not_and] at this
    by_contra hnp
    exact this hk hnp
  · intro h d hd
    simp only [Bool.and_eq_true, decide_eq_true_eq, Bool.not_eq_true',
      decide_eq_false_iff_not, not_and]
    intro hk
    intro hnp
    exact hnp (h d hd hk)

theorem filter_split_count {p q : String → Bool} {i : String}
    (hpi : p i = true) (hqi : q i = false) (hother : ∀ d, d ≠ i → p d = q d) :
    ∀ l : List String, (l.filter p).length = (l.filter q).length + l.count i := by
  intro l
  induction l with
  | nil => simp
  | cons d l2 ih =>
    by_cases hd : d = i
    · rw [hd, List.filter_cons_of_pos hpi, List.filter_cons_of_neg (by simp [hqi]),
        List.count_cons_self]
      simp only [List.length_cons]
      omega
    · have hco : (d == i) = false := by simpa using hd
      have hcnt : List.count i (d :: l2) = List.count i l2 := by
        rw [List.count_cons, hco]
        simp
      rw [hcnt]
      by_cases hpd : p d = true
      · rw [List.filter_cons_of_pos hpd,
          List.filter_cons_of_pos (by rw [← hother d hd]; exact hpd)]
        simp only [List.length_cons]
        omega
      · have hpd' : p d = false := by simpa using hpd
        rw [List.filter_cons_of_neg (by simp [hpd']),
          List.filter_cons_of_neg (by simp [← hother d hd, hpd'])]
        omega

theorem map_sum_single {i n : String} :
    ∀ fs : List Feature, (keyIds fs).Nodup → n ∈ keyIds fs →
      (fs.map (fun f => if f.id = n then f.dependencies.count i else 0)).sum
        = (featMap fs n).dependencies.count i := by
  intro fs
  induction fs with
  | nil =>
    intro _ hn
    simp [keyIds] at hn
  | cons f rest ih =>
    intro hnodup hn
    by_cases hf : f.id = n
    · have hrest : (rest.map (fun f => if f.id = n then f.dependencies.count i else 0)).sum
          = 0 := by
        refine List.sum_eq_zero ?_
        intro x hx
        rcases List.mem_map.mp hx with ⟨f2, hf2, rfl⟩
        have hne : f2.id ≠ n := by
          intro he
          have hkn : (keyIds (f :: rest)) = f.id :: keyIds rest := rfl
          have := (List.nodup_cons.mp (hkn ▸ hnodup)).1
          exact this (hf ▸ he ▸ List.mem_map.mpr ⟨f2, hf2, rfl⟩)
        simp [hne]
      have hfm : featMap (f :: rest) n = f := by
        simp [featMap, List.find?, show (f.id == n) = true by simpa using hf]
      rw [hfm]
      simp [hf, hrest]
    · have hn' : n ∈ keyIds rest := by
        rcases List.mem_cons.mp hn with h | h
        · exact absurd h.symm hf
        · exact h
      have hnodup' : (keyIds rest).Nodup := by
        have hkn : (keyIds (f :: rest)) = f.id :: keyIds rest := rfl
        exact (List.nodup_cons.mp (hkn ▸ hnodup)).2
      have hfm : featMap (f :: rest) n = featMap rest n := by
        simp [featMap, List.find?, show (f.id == n) = false by simpa using hf]
      rw [hfm]
      simp only [List.map_cons, List.sum_cons, hf, if_false]
      rw [ih hnodup' hn']
      omega

theorem adjOf_count {fs : List Feature} (hnodup : (keyIds fs).Nodup)
    {n i : String} (hn : n ∈ keyIds fs) (hi : i ∈ keyIds fs) :
    (adjOf fs i).count n = (featMap fs n).dependencies.count i := by
  rw [adjOf, if_pos hi, List.count_flatten, List.map_map]
  have hcong : (fs.map (List.count n ∘ fun f =>
        (f.dependencies.filter (fun x => x == i)).map (fun _ => f.id)))
      = fs.map (fun f => if f.id = n then f.dependencies.count i else 0) := by
    refine List.map_congr_left ?_
    intro f _
    simp only [Function.comp_apply]
    have hrep : (f.dependencies.filter (fun x => x == i)).map
        (fun _ => f.id)
        = List.replicate (f.dependencies.filter (fun x => x == i)).length f.id := by
      exact List.map_const' _ f.id
    rw [hrep, List.count_replicate]
    have hlen : (f.dependencies.filter (fun x => x == i)).length
        = f.dependencies.count i := by
      rw [List.count, List.countP_eq_length_filter]
    by_cases hf : f.id = n
    · simp [hf, hlen]
    · simp [show (f.id == n) = false by simpa using hf, hf]
  rw [hcong]
  exact map_sum_single fs hnodup hn

theorem mem_adjOf {fs : List Feature} {i m : String} (h : m ∈ adjOf fs i) :
    ∃ f ∈ fs, f.id = m ∧ i ∈ f.dependencies := by
  unfold adjOf at h
  split at h
  · rcases List.mem_flatten.mp h with ⟨l, hl, hm⟩
    rcases List.mem_map.mp hl with ⟨f, hf, rfl⟩
    rcases List.mem_map.mp hm with ⟨x, hx, rfl⟩
    have hxi : x = i := by simpa using List.of_mem_filter hx
    exact ⟨f, hf, rfl, hxi ▸ List.mem_of_mem_filter hx⟩
  · simp at h

theorem featMap_self {fs : List Feature} (hnodup : (keyIds fs).Nodup)
    {f : Feature} (hf : f ∈ fs) : featMap fs f.id = f := by
  have hk : f.id ∈ keyIds fs := List.mem_map.mpr ⟨f, hf, rfl⟩
  have hm := featMap_mem hk
  exact feature_id_inj hnodup hm.1 hf hm.2

theorem lookupG_graphOf {fs : List Feature} {n : String} (hn : n ∈ keyIds fs) :
    lookupG (graphOf fs) n = (featMap fs n).dependencies := by
  induction fs with
  | nil => simp [keyIds] at hn
  | cons f rest ih =>
    by_cases hf : f.id = n
    · simp [lookupG, graphOf, featMap, List.find?,
        show (f.id == n) = true by simpa using hf]
    · have hn' : n ∈ keyIds rest := by
        rcases List.mem_cons.mp hn with h | h
        · exact absurd h.symm hf
        · exact h
      have h1 : lookupG (graphOf (f :: rest)) n = lookupG (graphOf rest) n := by
        simp [lookupG, graphOf, List.find?, show (f.id == n) = false by simpa using hf]
      have h2 : featMap (f :: rest) n = featMap rest n := by
        simp [featMap, List.find?, show (f.id == n) = false by simpa using hf]
      rw [h1, h2]
      exact ih hn'

theorem placed_unplacedDeg_zero {fs : List Feature} {res : List Feature}
    (hwf : ∀ f ∈ res, f = featMap fs f.id) (hord : ordOK fs res)
    {m : String} (hm : m ∈ res.map (fun f => f.id)) :
    unplacedDeg fs (res.map (fun f => f.id)) m = 0 := by
  rcases List.mem_map.mp hm with ⟨f, hf, rfl⟩
  rcases List.mem_iff_get.mp hf with ⟨k, hk⟩
  rw [unplacedDeg_zero_iff]
  intro d hd hdk
  have hfm : featMap fs f.id = f := (hwf f hf).symm
  rw [hfm] at hd
  have hdtake := hord k.1 k.2 d (by rw [hk]; exact hd) hdk
  have hsub : (res.take k.1).map (fun f => f.id) ⊆ res.map (fun f => f.id) := by
    intro x hx
    rcases List.mem_map.mp hx with ⟨f2, hf2, rfl⟩
    exact List.mem_map.mpr ⟨f2, List.take_subset _ _ hf2, rfl⟩
  exact hsub hdtake

theorem unplacedDeg_split {fs : List Feature} (hnodup : (keyIds fs).Nodup)
    {placed : List String} {i n : String} (hi : i ∈ keyIds fs) (hip : i ∉ placed)
    (hn : n ∈ keyIds fs) :
    unplacedDeg fs placed n
      = unplacedDeg fs (placed ++ [i]) n + (adjOf fs i).count n := by
  rw [adjOf_count hnodup hn hi]
  unfold unplacedDeg
  refine filter_split_count ?_ ?_ ?_ (featMap fs n).dependencies
  · simp only [Bool.and_eq_true, decide_eq_true_eq, Bool.not_eq_true',
      decide_eq_false_iff_not]
    exact ⟨hi, hip⟩
  · have hmem : i ∈ placed ++ [i] := List.mem_append.mpr (Or.inr (by simp))
    simp [hmem]
  · intro d hd
    have hiff : (d ∈ placed ++ [i]) ↔ (d ∈ placed) := by
      simp [List.mem_append, hd]
    simp [hiff]

theorem count_tail_zero {i n : String} {L2 : List String}
    (h : (n :: L2).count i = 0) : L2.count i = 0 := by
  rw [List.count_cons] at h
  omega

theorem stepDec_inv {fs : List Feature} {st : KahnSt} {pend : List String}
    {n : String} {L2 : List String}
    (hinv : KInv fs st pend (n :: L2)) (hnk : n ∈ keyIds fs) :
    KInv fs (stepDec st n)
        (if st.indeg n - 1 = 0 then pend ++ [n] else pend) L2
      ∧ (stepDec st n).queue
          = (if st.indeg n - 1 = 0 then st.queue ++ [n] else st.queue)
      ∧ (stepDec st n).result = st.result := by
  obtain ⟨c1, c2, c3, c4, c5, c6, c7, c8, c9, c10, c11⟩ := hinv
  have h9n := c9 n hnk
  rw [List.count_cons_self] at h9n
  refine ⟨?_, rfl, rfl⟩
  unfold KInv
  simp only [show resIds (stepDec st n) = resIds st from rfl,
    show (stepDec st n).result = st.result from rfl,
    show ∀ m, (stepDec st n).indeg m
        = (if m = n then st.indeg n - 1 else st.indeg m) from fun _ => rfl]
  by_cases hv : st.indeg n - 1 = 0
  · rw [if_pos hv]
    have hz1 : unplacedDeg fs (resIds st) n = 0 := by omega
    have hz2 : L2.count n = 0 := by omega
    have hnpend : n ∉ pend := by
      intro h
      have hc := (c7 n h).2
      rw [List.count_cons_self] at hc
      omega
    have hnres : n ∉ resIds st := by
      intro h
      have hc := c8 n h
      rw [List.count_cons_self] at hc
      omega
    refine ⟨c1, c2, c3, ?_, ?_, ?_, ?_, ?_, ?_, ?_, c11⟩
    · rw [List.nodup_append]
      refine ⟨c4, List.nodup_singleton n, ?_⟩
      intro a ha hb
      have hab : a = n := by simpa using hb
      rw [hab] at ha
      exact hnpend ha
    · intro i hi
      rcases List.mem_append.mp hi with h | h
      · exact c5 i h
      · have hik : i = n := by simpa using h
        rw [hik]
        exact hnk
    · intro i hi
      rcases List.mem_append.mp hi with h | h
      · exact c6 i h
      · have hik : i = n := by simpa using h
        rw [hik]
        exact hnres
    · intro i hi
      rcases List.mem_append.mp hi with h | h
      · exact ⟨(c7 i h).1, count_tail_zero (c7 i h).2⟩
      · have hik : i = n := by simpa using h
        rw [hik]
        exact ⟨hz1, hz2⟩
    · intro i hi
      exact count_tail_zero (c8 i hi)
    · intro m hm
      by_cases hmn : m = n
      · rw [if_pos hmn, hv, hmn, hz1, hz2]
        simp
      · rw [if_neg hmn]
        have h9m := c9 m hm
        rw [List.count_cons] at h9m
        have hco : (n == m) = false := by
          simp only [beq_eq_false_iff_ne, ne_eq]
          intro he
          exact hmn he.symm
        rw [hco] at h9m
        simpa using h9m
    · intro m hm hmres hmpend
      have hmn : m ≠ n := by
        intro he
        exact hmpend (List.mem_append.mpr (Or.inr (by rw [he]; simp)))
      rw [if_neg hmn]
      exact c10 m hm hmres (fun hmp => hmpend (List.mem_append.mpr (Or.inl hmp)))
  · rw [if_neg hv]
    refine ⟨c1, c2, c3, c4, c5, c6, ?_, ?_, ?_, ?_, c11⟩
    · intro i hi
      exact ⟨(c7 i hi).1, count_tail_zero (c7 i hi).2⟩
    · intro i hi
      exact count_tail_zero (c8 i hi)
    · intro m hm
      by_cases hmn : m = n
      · rw [if_pos hmn, hmn]
        omega
      · rw [if_neg hmn]
        have h9m := c9 m hm
        rw [List.count_cons] at h9m
        have hco : (n == m) = false := by
          simp only [beq_eq_false_iff_ne, ne_eq]
          intro he
          exact hmn he.symm
        rw [hco] at h9m
        simpa using h9m
    · intro m hm hmres hmpend
      by_cases hmn : m = n
      · rw [if_pos hmn]
        exact hv
      · rw [if_neg hmn]
        exact c10 m hm hmres hmpend

theorem processNbrs_inv {fs : List Feature} :
    ∀ (L : List String) (st : KahnSt) (batchRem : List String),
      KInv fs st (batchRem ++ st.queue) L →
      (∀ x ∈ L, x ∈ keyIds fs) →
      KInv fs (processNbrs st L) (batchRem ++ (processNbrs st L).queue) []
        ∧ (processNbrs st L).result = st.result := by
  intro L
  induction L with
  | nil =>
    intro st batchRem hinv _
    exact ⟨hinv, rfl⟩
  | cons n L2 ih =>
    intro st batchRem hinv hL
    have hstep := stepDec_inv hinv (hL n (List.mem_cons_self _ _))
    have hrw : processNbrs st (n :: L2) = processNbrs (stepDec st n) L2 := rfl
    by_cases hv : st.indeg n - 1 = 0
    · rw [if_pos hv] at hstep
      have hinv2 : KInv fs (stepDec st n) (batchRem ++ (stepDec st n).queue) L2 := by
        rw [hstep.2.1, if_pos hv, ← List.append_assoc]
        exact hstep.1
      have h2 := ih (stepDec st n) batchRem hinv2
        (fun x hx => hL x (List.mem_cons_of_mem _ hx))
      rw [hrw]
      exact ⟨h2.1, by rw [h2.2, hstep.2.2]⟩
    · rw [if_neg hv] at hstep
      have hinv2 : KInv fs (stepDec st n) (batchRem ++ (stepDec st n).queue) L2 := by
        rw [hstep.2.1, if_neg hv]
        exact hstep.1
      have h2 := ih (stepDec st n) batchRem hinv2
        (fun x hx => hL x (List.mem_cons_of_mem _ hx))
      rw [hrw]
      exact ⟨h2.1, by rw [h2.2, hstep.2.2]⟩

theorem placeOne_inv {fs : List Feature} (hnodup : (keyIds fs).Nodup)
    {st : KahnSt} {i : String} {batchRem : List String}
    (hinv : KInv fs st ((i :: batchRem) ++ st.queue) []) :
    KInv fs (placeOne fs st i) (batchRem ++ (placeOne fs st i).queue) []
      ∧ (placeOne fs st i).result = st.result ++ [featMap fs i] := by
  obtain ⟨c1, c2, c3, c4, c5, c6, c7, c8, c9, c10, c11⟩ := hinv
  have hipend : i ∈ (i :: batchRem) ++ st.queue := by simp
  have hik : i ∈ keyIds fs := c5 i hipend
  have hires : i ∉ resIds st := c6 i hipend
  have hiU : unplacedDeg fs (resIds st) i = 0 := (c7 i hipend).1
  have hfid : (featMap fs i).id = i := (featMap_mem hik).2
  have hnodup_cons := List.nodup_cons.mp (show (i :: (batchRem ++ st.queue)).Nodup from c4)
  have hinotrest : i ∉ batchRem ++ st.queue := hnodup_cons.1
  have hrestnodup : (batchRem ++ st.queue).Nodup := hnodup_cons.2
  have hrs1 : resIds ({ st with result := st.result ++ [featMap fs i] })
      = resIds st ++ [i] := by
    unfold resIds
    simp [hfid]
  have hcount0 : ∀ m, unplacedDeg fs (resIds st) m = 0 → (adjOf fs i).count m = 0 := by
    intro m hUm
    by_contra hc
    have hpos : 0 < (adjOf fs i).count m := Nat.pos_of_ne_zero hc
    have hmem : m ∈ adjOf fs i := List.count_pos_iff.mp hpos
    rcases mem_adjOf hmem with ⟨f, hf, hfid2, hideps⟩
    have hfm : featMap fs m = f := by
      rw [← hfid2]
      exact featMap_self hnodup hf
    have hplaced := unplacedDeg_zero_iff.mp hUm i (by rw [hfm]; exact hideps) hik
    exact hires hplaced
  have hmid : KInv fs ({ st with result := st.result ++ [featMap fs i] })
      (batchRem ++ st.queue) (adjOf fs i) := by
    unfold KInv
    simp only [hrs1]
    refine ⟨?_, ?_, ?_, hrestnodup, ?_, ?_, ?_, ?_, ?_, ?_, ?_⟩
    · rw [List.nodup_append]
      refine ⟨c1, List.nodup_singleton i, ?_⟩
      intro a ha hb
      have hab : a = i := by simpa using hb
      rw [hab] at ha
      exact hires ha
    · intro m hm
      rcases List.mem_append.mp hm with h | h
      · exact c2 m h
      · have hmi : m = i := by simpa using h
        rw [hmi]
        exact hik
    · intro f hf
      rcases List.mem_append.mp hf with h | h
      · exact c3 f h
      · have hfi : f = featMap fs i := by simpa using h
        rw [hfi, hfid]
    · intro m hm
      exact c5 m (List.mem_cons_of_mem _ hm)
    · intro m hm
      have hm6 := c6 m (List.mem_cons_of_mem _ hm)
      intro hmm
      rcases List.mem_append.mp hmm with h | h
      · exact hm6 h
      · have hmi : m = i := by simpa using h
        rw [hmi] at hm
        exact hinotrest hm
    · intro m hm
      have h7 := c7 m (List.mem_cons_of_mem _ hm)
      constructor
      · have hle := @unplacedDeg_mono fs (resIds st) (resIds st ++ [i])
          (fun x hx => List.mem_append.mpr (Or.inl hx)) m
        omega
      · exact hcount0 m h7.1
    · intro m hm
      rcases List.mem_append.mp hm with h | h
      · exact hcount0 m (placed_unplacedDeg_zero c3 c11 h)
      · have hmi : m = i := by simpa using h
        rw [hmi]
        exact hcount0 i hiU
    · intro m hm
      have h9 := c9 m hm
      rw [List.count_nil] at h9
      have hsplit := unplacedDeg_split hnodup hik hires hm
      show st.indeg m
          = (unplacedDeg fs (resIds st ++ [i]) m : Int) + ((adjOf fs i).count m : Int)
      omega
    · intro m hm hmres hmpend
      refine c10 m hm ?_ ?_
      · intro hc
        exact hmres (List.mem_append.mpr (Or.inl hc))
      · intro hc
        rcases List.mem_cons.mp hc with h | h
        · rw [h] at hmres
          exact hmres (List.mem_append.mpr (Or.inr (by simp)))
        · exact hmpend h
    · intro k hk d hd hdk
      have hlen : st.result.length + 1 = (st.result ++ [featMap fs i]).length := by
        simp
      by_cases hkl : k < st.result.length
      · have hget : (st.result ++ [featMap fs i]).get ⟨k, hk⟩ = st.result.get ⟨k, hkl⟩ := by
          exact List.getElem_append_left hkl
        rw [hget] at hd
        have htake : (st.result ++ [featMap fs i]).take k = st.result.take k := by
          exact List.take_append_of_le_length (by omega)
        rw [htake]
        exact c11 k hkl d hd hdk
      · have hkeq : k = st.result.length := by
          simp only [List.length_append, List.length_singleton] at hk
          omega
        have hget : (st.result ++ [featMap fs i]).get ⟨k, hk⟩ = featMap fs i := by
          subst hkeq
          rw [List.get_eq_getElem]
          exact List.getElem_concat_length _ _ _ rfl _
        rw [hget] at hd
        have hdres : d ∈ resIds st := unplacedDeg_zero_iff.mp hiU d hd hdk
        have htake : (st.result ++ [featMap fs i]).take k = st.result := by
          subst hkeq
          exact List.take_left _ _
        rw [htake]
        exact hdres
  have hL : ∀ x ∈ adjOf fs i, x ∈ keyIds fs := fun x hx => adjOf_mem_keys hx
  have h2 := processNbrs_inv (adjOf fs i)
    ({ st with result := st.result ++ [featMap fs i] }) batchRem hmid hL
  exact ⟨h2.1, h2.2⟩

theorem processBatch_inv {fs : List Feature} (hnodup : (keyIds fs).Nodup) :
    ∀ (batch : List String) (st : KahnSt),
      KInv fs st (batch ++ st.queue) [] →
      KInv fs (processBatch fs st batch) (processBatch fs st batch).queue []
        ∧ (processBatch fs st batch).result = st.result ++ batch.map (featMap fs) := by
  intro batch
  induction batch with
  | nil =>
    intro st hinv
    refine ⟨hinv, ?_⟩
    show st.result = st.result ++ ([] : List String).map (featMap fs)
    simp
  | cons i rest ih =>
    intro st hinv
    have h1 := placeOne_inv hnodup hinv
    have hrw : processBatch fs st (i :: rest) = processBatch fs (placeOne fs st i) rest := rfl
    have h2 := ih (placeOne fs st i) h1.1
    rw [hrw]
    refine ⟨h2.1, ?_⟩
    rw [h2.2, h1.2]
    simp

theorem KInv_pend_perm {fs : List Feature} {st : KahnSt} {pend pend2 L : List String}
    (hp : pend.Perm pend2) (h : KInv fs st pend L) : KInv fs st pend2 L := by
  obtain ⟨c1, c2, c3, c4, c5, c6, c7, c8, c9, c10, c11⟩ := h
  refine ⟨c1, c2, c3, hp.nodup_iff.mp c4, ?_, ?_, ?_, c8, c9, ?_, c11⟩
  · intro i hi
    exact c5 i (hp.mem_iff.mpr hi)
  · intro i hi
    exact c6 i (hp.mem_iff.mpr hi)
  · intro i hi
    exact c7 i (hp.mem_iff.mpr hi)
  · intro m hm hr hpend
    exact c10 m hm hr (fun hc => hpend (hp.mem_iff.mp hc))

theorem kahnRun_inv {fs : List Feature} (hnodup : (keyIds fs).Nodup) :
    ∀ (fuel : Nat) (st : KahnSt),
      KInv fs st st.queue [] →
      ((keyIds fs).filter (fun n => !(decide (n ∈ resIds st)))).length + 1 ≤ fuel →
      KInv fs (kahnRun fs fuel st) (kahnRun fs fuel st).queue []
        ∧ (kahnRun fs fuel st).queue = [] := by
  intro fuel
  induction fuel with
  | zero =>
    intro st _ hf
    omega
  | succ fuel ih =>
    intro st hinv hfuel
    by_cases hq : st.queue = []
    · have hrw : kahnRun fs (fuel + 1) st = st := by
        rw [kahnRun, if_pos hq]
      rw [hrw]
      exact ⟨hinv, hq⟩
    · have hbp : (stableSortBy (prioKey fs) st.queue).Perm st.queue :=
        stableSortBy_perm _ _
      have hinvB : KInv fs ({ st with queue := [] })
          (stableSortBy (prioKey fs) st.queue) [] :=
        KInv_pend_perm hbp.symm hinv
      obtain ⟨d1, d2, d3, d4, d5, d6, d7, d8, d9, d10, d11⟩ := hinvB
      have hinv2 : KInv fs ({ st with queue := [] })
          (stableSortBy (prioKey fs) st.queue
            ++ ({ st with queue := [] } : KahnSt).queue) [] := by
        have he : stableSortBy (prioKey fs) st.queue
            ++ ({ st with queue := [] } : KahnSt).queue
            = stableSortBy (prioKey fs) st.queue := List.append_nil _
        rw [he]
        exact ⟨d1, d2, d3, d4, d5, d6, d7, d8, d9, d10, d11⟩
      have hbatch := processBatch_inv hnodup (stableSortBy (prioKey fs) st.queue) _ hinv2
      have hmape : (stableSortBy (prioKey fs) st.queue).map (fun i => (featMap fs i).id)
          = stableSortBy (prioKey fs) st.queue := by
        have hm : (stableSortBy (prioKey fs) st.queue).map (fun i => (featMap fs i).id)
            = (stableSortBy (prioKey fs) st.queue).map (fun i => i) :=
          List.map_congr_left (fun i hi => (featMap_mem (d5 i hi)).2)
        simpa using hm
      have hrIds2 : resIds (processBatch fs ({ st with queue := [] })
            (stableSortBy (prioKey fs) st.queue))
          = resIds st ++ stableSortBy (prioKey fs) st.queue := by
        unfold resIds
        rw [hbatch.2, List.map_append, List.map_map]
        have hco : (fun f : Feature => f.id) ∘ featMap fs = fun i => (featMap fs i).id := rfl
        rw [hco, hmape]
      have hbne : stableSortBy (prioKey fs) st.queue ≠ [] := by
        intro hc
        rw [hc] at hbp
        exact hq (List.Perm.eq_nil hbp.symm)
      rcases List.exists_mem_of_ne_nil _ hbne with ⟨b0, hb0⟩
      have hlt : ((keyIds fs).filter (fun n => !(decide (n ∈ resIds
            (processBatch fs ({ st with queue := [] })
              (stableSortBy (prioKey fs) st.queue)))))).length
          < ((keyIds fs).filter (fun n => !(decide (n ∈ resIds st)))).length := by
        refine filter_length_lt ?_ (d5 b0 hb0) ?_ ?_
        · intro x hx
          simp only [Bool.not_eq_true', decide_eq_false_iff_not] at hx ⊢
          intro hc
          rw [hrIds2] at hx
          exact hx (List.mem_append.mpr (Or.inl hc))
        · simp only [Bool.not_eq_false', decide_eq_true_eq]
          rw [hrIds2]
          exact List.mem_append.mpr (Or.inr hb0)
        · simp only [Bool.not_eq_true', decide_eq_false_iff_not]
          exact d6 b0 hb0
      have hrw : kahnRun fs (fuel + 1) st
          = kahnRun fs fuel (processBatch fs ({ st with queue := [] })
              (stableSortBy (prioKey fs) st.queue)) := by
        rw [kahnRun, if_neg hq]
      rw [hrw]
      exact ih _ hbatch.1 (by omega)

theorem cycle_of_all_succ {g : List (String × List String)} {U : List String}
    (hne : U ≠ []) (hsucc : ∀ u ∈ U, ∃ v, v ∈ U ∧ Eg g u v) : hasCycleG g := by
  rcases List.exists_mem_of_ne_nil U hne with ⟨u0, hu0⟩
  let F : Nat → {x : String // x ∈ U} := fun n =>
    Nat.rec ⟨u0, hu0⟩
      (fun _ p => ⟨(hsucc p.1 p.2).choose, (hsucc p.1 p.2).choose_spec.1⟩) n
  have hstep : ∀ n : Nat, Eg g (F n).1 (F (n + 1)).1 := by
    intro n
    exact (hsucc (F n).1 (F n).2).choose_spec.2
  have hchain : ∀ m n : Nat, m < n → Relation.TransGen (Eg g) (F m).1 (F n).1 := by
    intro m n
    induction n with
    | zero =>
      intro hmn
      omega
    | succ n ihn =>
      intro hmn
      rcases Nat.lt_succ_iff_lt_or_eq.mp hmn with h | h
      · exact (ihn h).tail (hstep n)
      · rw [h]
        exact Relation.TransGen.single (hstep n)
  have hmapsto : ∀ n ∈ Finset.range (U.length + 1), (F n).1 ∈ U.toFinset :=
    fun n _ => List.mem_toFinset.mpr (F n).2
  have hcard : U.toFinset.card < (Finset.range (U.length + 1)).card := by
    rw [Finset.card_range]
    exact Nat.lt_succ_of_le (List.toFinset_card_le U)
  rcases Finset.exists_ne_map_eq_of_card_lt_of_maps_to hcard hmapsto
    with ⟨a, _, b, _, hab, heq⟩
  rcases Nat.lt_or_ge a b with h | h
  · have hc := hchain a b h
    rw [← heq] at hc
    exact ⟨(F a).1, hc⟩
  · have hba : b < a := lt_of_le_of_ne h (fun he => hab he.symm)
    have hc := hchain b a hba
    rw [heq] at hc
    exact ⟨(F b).1, hc⟩

theorem kahn_init_inv {fs : List Feature} (hnodup : (keyIds fs).Nodup) :
    KInv fs { indeg := initInDegree fs, queue := initQueue fs, result := [] }
      (initQueue fs) [] := by
  refine ⟨?_, ?_, ?_, ?_, ?_, ?_, ?_, ?_, ?_, ?_, ?_⟩
  · simp [resIds]
  · intro i hi
    simp [resIds] at hi
  · intro f hf
    simp at hf
  · exact hnodup.filter _
  · intro i hi
    exact List.mem_of_mem_filter hi
  · intro i _
    simp [resIds]
  · intro i hi
    have hk := List.mem_of_mem_filter hi
    have hdeg : initInDegree fs i = 0 := by
      have h0 := List.of_mem_filter hi
      simpa using h0
    simp only [initInDegree, if_pos hk] at hdeg
    constructor
    · have hz2 : unplacedDeg fs [] i = 0 := by omega
      exact hz2
    · simp
  · intro i hi
    simp [resIds] at hi
  · intro n hn
    show initInDegree fs n = _
    rw [initInDegree, if_pos hn]
    simp [resIds]
  · intro n hn _ hq
    show initInDegree fs n ≠ 0
    intro hz
    refine hq (List.mem_filter.mpr ⟨hn, ?_⟩)
    simp [hz]
  · intro k hk
    simp at hk

theorem nodup_indexOf_get {l : List String} (h : l.Nodup) :
    ∀ (k : Nat) (hk : k < l.length), List.indexOf (l.get ⟨k, hk⟩) l = k := by
  induction l with
  | nil =>
    intro k hk
    simp at hk
  | cons x t ih =>
    intro k hk
    cases k with
    | zero => simp [List.indexOf_cons]
    | succ k2 =>
      have hk2 : k2 < t.length := by simpa using hk
      have hget : (x :: t).get ⟨k2 + 1, hk⟩ = t.get ⟨k2, hk2⟩ := rfl
      rw [hget, List.indexOf_cons]
      have hx : (x == t.get ⟨k2, hk2⟩) = false := by
        simp only [beq_eq_false_iff_ne, ne_eq]
        intro he
        exact (List.nodup_cons.mp h).1 (he ▸ List.get_mem t _ _)
      rw [hx]
      simp only [Bool.cond_false]
      rw [ih (List.nodup_cons.mp h).2 k2 hk2]

theorem indexOf_lt_of_mem_take {d : String} :
    ∀ (l : List String) (k : Nat), d ∈ l.take k → List.indexOf d l < k := by
  intro l
  induction l with
  | nil =>
    intro k h
    simp at h
  | cons x t ih =>
    intro k h
    cases k with
    | zero => simp at h
    | succ k2 =>
      rw [List.take_succ_cons] at h
      by_cases hx : (x == d) = true
      · rw [List.indexOf_cons, hx]
        simp
      · have hx' : (x == d) = false := by simpa using hx
        rcases List.mem_cons.mp h with he | h2
        · rw [he] at hx'
          simp at hx'
        · rw [List.indexOf_cons, hx']
          simp only [Bool.cond_false]
          have := ih k2 h2
          omega

theorem kahn_final {fs : List Feature} (hnodup : (keyIds fs).Nodup)
    (hacyc : ¬ hasCycleG (graphOf fs)) :
    ((topological_sort_features fs).map (fun f => f.id)).Perm (keyIds fs)
      ∧ (∀ f2 ∈ topological_sort_features fs, f2 = featMap fs (Feature.id f2))
      ∧ ordOK fs (topological_sort_features fs) := by
  have hinit : KInv fs (⟨initInDegree fs, initQueue fs, []⟩ : KahnSt)
      ((⟨initInDegree fs, initQueue fs, []⟩ : KahnSt).queue) [] := kahn_init_inv hnodup
  have hmeas : ((keyIds fs).filter (fun n => !(decide (n ∈ resIds
        (⟨initInDegree fs, initQueue fs, []⟩ : KahnSt))))).length + 1 ≤ fs.length + 1 := by
    have hle := List.length_filter_le
      (fun n => !(decide (n ∈ resIds (⟨initInDegree fs, initQueue fs, []⟩ : KahnSt))))
      (keyIds fs)
    have hkl : (keyIds fs).length = fs.length := List.length_map _ _
    omega
  have hrun := kahnRun_inv hnodup (fs.length + 1)
    (⟨initInDegree fs, initQueue fs, []⟩ : KahnSt) hinit hmeas
  obtain ⟨e1, e2, e3, e4, e5, e6, e7, e8, e9, e10, e11⟩ := hrun.1
  have hqnil := hrun.2
  have hU : (keyIds fs).filter (fun n => !(decide (n ∈ resIds
      (kahnRun fs (fs.length + 1) (⟨initInDegree fs, initQueue fs, []⟩ : KahnSt))))) = [] := by
    by_contra hUne
    refine hacyc (cycle_of_all_succ hUne ?_)
    intro u hu
    have huk := List.mem_of_mem_filter hu
    have hur : u ∉ resIds (kahnRun fs (fs.length + 1)
        (⟨initInDegree fs, initQueue fs, []⟩ : KahnSt)) := by
      have h0 := List.of_mem_filter hu
      simpa using h0
    have hune0 := e10 u huk hur (by rw [hqnil]; simp)
    have h9u := e9 u huk
    rw [List.count_nil] at h9u
    have hUdeg : unplacedDeg fs (resIds (kahnRun fs (fs.length + 1)
        (⟨initInDegree fs, initQueue fs, []⟩ : KahnSt))) u ≠ 0 := by
      intro hz
      rw [hz] at h9u
      simp at h9u
      exact hune0 h9u
    rw [Ne, unplacedDeg_zero_iff] at hUdeg
    push_neg at hUdeg
    rcases hUdeg with ⟨d, hd, hdk, hdnr⟩
    refine ⟨d, ?_, ?_⟩
    · refine List.mem_filter.mpr ⟨hdk, ?_⟩
      simpa using hdnr
    · show d ∈ lookupG (graphOf fs) u
      rw [lookupG_graphOf huk]
      exact hd
  have hsub1 : ∀ k ∈ keyIds fs, k ∈ resIds (kahnRun fs (fs.length + 1)
      (⟨initInDegree fs, initQueue fs, []⟩ : KahnSt)) := by
    intro k hk
    have hni := List.filter_eq_nil_iff.mp hU k hk
    simpa using hni
  have hperm : (resIds (kahnRun fs (fs.length + 1)
      (⟨initInDegree fs, initQueue fs, []⟩ : KahnSt))).Perm (keyIds fs) := by
    refine List.Subperm.antisymm ?_ ?_
    · exact List.subperm_of_subset e1 (fun x hx => e2 x hx)
    · exact List.subperm_of_subset hnodup hsub1
  have hlen : (kahnRun fs (fs.length + 1)
      (⟨initInDegree fs, initQueue fs, []⟩ : KahnSt)).result.length = fs.length := by
    have h1 := hperm.length_eq
    have h2 : (resIds (kahnRun fs (fs.length + 1)
        (⟨initInDegree fs, initQueue fs, []⟩ : KahnSt))).length
        = (kahnRun fs (fs.length + 1)
            (⟨initInDegree fs, initQueue fs, []⟩ : KahnSt)).result.length :=
      List.length_map _ _
    have h3 : (keyIds fs).length = fs.length := List.length_map _ _
    omega
  have hout : topological_sort_features fs
      = (kahnRun fs (fs.length + 1)
          (⟨initInDegree fs, initQueue fs, []⟩ : KahnSt)).result := by
    simp only [topological_sort_features]
    rw [if_neg (by omega)]
  rw [hout]
  exact ⟨hperm, e3, e11⟩

theorem acyclic_of_detect_nil {fs : List Feature}
    (h : detect_circular_dependencies fs = []) : ¬ hasCycleG (graphOf fs) := by
  intro hcyc
  rcases hcyc with ⟨a, ha⟩
  rcases Relation.TransGen.head'_iff.mp ha with ⟨b, hab, _⟩
  exact (detect_spec fs).2 h a (Eg_mem_keys hab) a Relation.ReflTransGen.refl ha

/-- C4: for every collection with unique ids whose dependency graph is
acyclic, the computed execution order contains each item's id exactly once
(its id list is a permutation of the collection's id list), and for every
dependency edge between items of the collection the dependency's position in
the order strictly precedes the dependent's position. -/
theorem C4_topological_order (fs : List Feature)
    (hnodup : (fs.map (fun f => f.id)).Nodup) (hacyc : ¬ hasCycleG (graphOf fs)) :
    ((topological_sort_features fs).map (fun f => f.id)).Perm (fs.map (fun f => f.id))
      ∧ (∀ f ∈ fs, ∀ d ∈ f.dependencies, d ∈ fs.map (fun g2 => g2.id) →
          List.indexOf d ((topological_sort_features fs).map (fun f2 => f2.id))
            < List.indexOf f.id ((topological_sort_features fs).map (fun f2 => f2.id))) := by
  obtain ⟨hperm, hwf, hord⟩ := kahn_final hnodup hacyc
  have houtnodup : ((topological_sort_features fs).map (fun f => f.id)).Nodup :=
    hperm.nodup_iff.mpr hnodup
  refine ⟨hperm, ?_⟩
  intro f hf d hd hdk
  have hfk : f.id ∈ keyIds fs := List.mem_map.mpr ⟨f, hf, rfl⟩
  have hfout : f ∈ topological_sort_features fs := by
    have hmemid : f.id ∈ (topological_sort_features fs).map (fun f2 => f2.id) :=
      hperm.mem_iff.mpr hfk
    rcases List.mem_map.mp hmemid with ⟨f2, hf2, hfeq⟩
    have hf2e : f2 = featMap fs f2.id := hwf f2 hf2
    rw [hfeq] at hf2e
    rw [featMap_self hnodup hf] at hf2e
    exact hf2e ▸ hf2
  rcases List.mem_iff_get.mp hfout with ⟨k, hk⟩
  have hkm : k.1 < ((topological_sort_features fs).map (fun f2 => f2.id)).length := by
    rw [List.length_map]
    exact k.2
  have hgetid : ((topological_sort_features fs).map (fun f2 => f2.id)).get ⟨k.1, hkm⟩
      = f.id := by
    rw [List.get_map]
    have hsame : (topological_sort_features fs).get ⟨k.1, k.2⟩ = f := by
      rw [← hk]
    rw [hsame]
  have hidxf : List.indexOf f.id ((topological_sort_features fs).map (fun f2 => f2.id))
      = k.1 := by
    rw [← hgetid]
    exact nodup_indexOf_get houtnodup k.1 hkm
  have hdtake := hord k.1 k.2 d (by rw [hk]; exact hd) hdk
  have hdtake2 : d ∈ ((topological_sort_features fs).map (fun f2 => f2.id)).take k.1 := by
    rw [← List.map_take]
    exact hdtake
  have hidxd := indexOf_lt_of_mem_take
    ((topological_sort_features fs).map (fun f2 => f2.id)) k.1 hdtake2
  omega

/-- C4 witness: the order statement instantiated at a concrete two-item
acyclic collection with item `"a"` depending on item `"b"`. -/
theorem C4_topological_order_witness :
    (((topological_sort_features
          [{ id := "b" }, { id := "a", dependencies := ["b"] }]).map (fun f => f.id)).Perm
        (([{ id := "b" }, { id := "a", dependencies := ["b"] }] : List Feature).map
          (fun f => f.id)))
      ∧ (∀ f ∈ ([{ id := "b" }, { id := "a", dependencies := ["b"] }] : List Feature),
          ∀ d ∈ f.dependencies,
          d ∈ ([{ id := "b" }, { id := "a", dependencies := ["b"] }] : List Feature).map
              (fun g2 => g2.id) →
          List.indexOf d ((topological_sort_features
              [{ id := "b" }, { id := "a", dependencies := ["b"] }]).map (fun f2 => f2.id))
            < List.indexOf f.id ((topological_sort_features
                [{ id := "b" }, { id := "a", dependencies := ["b"] }]).map
                  (fun f2 => f2.id))) :=
  C4_topological_order [{ id := "b" }, { id := "a", dependencies := ["b"] }]
    (by decide) (acyclic_of_detect_nil (by decide))
